import Mathlib

/-!
Verification development for the `@puck-labs/jsonata` expression library.

The development embeds, as executable Lean definitions, the parts of the
library that the specification describes:

* `coerceValueForField` — type coercion of evaluation results
  (`packages/jsonata/src/components/expression-field.tsx`);
* `evaluateExpression` — the never-throwing wrapper around the JSONata
  engine (`expression-resolver`);
* the `ExpressionField` asynchronous-evaluation state machine
  (version counter, stale-result suppression, error bookkeeping);
* `transformFields` / `withExpressions` — the config transformer;
* `resolveExpressions` — the recursive metadata-stripping tree resolver,
  embedded over an explicit object heap so that reference identity,
  sharing and cycles are representable.

JavaScript builtin conversions (`String`, `Number`, `JSON.stringify`)
are modelled for the value fragment the library manipulates
(JSON-like data: undefined, null, booleans, finite decimal numbers,
strings, arrays, objects).
-/

namespace PuckJsonata

/-- JavaScript runtime values, as finite trees.  Numbers are modelled as
rationals (every JS float is rational); strings, arrays and objects are
structural. -/
inductive JTree where
  | undef : JTree
  | null : JTree
  | bool (b : Bool) : JTree
  | num (q : ℚ) : JTree
  | str (s : String) : JTree
  | arr (elems : List JTree) : JTree
  | obj (props : List (String × JTree)) : JTree
deriving Repr

/-- The JavaScript `value === null` test. -/
def JTree.isNull : JTree → Bool
  | .null => true
  | _ => false

/-- The JavaScript `typeof` operator on the modelled value fragment
(`typeof null` is `"object"`, as in JS). -/
def jsTypeof : JTree → String
  | .undef => "undefined"
  | .null => "object"
  | .bool _ => "boolean"
  | .num _ => "number"
  | .str _ => "string"
  | .arr _ => "object"
  | .obj _ => "object"

/-- Decimal expansion of a proper fraction `n / d` (`n < d`), up to `fuel`
digits; used to model `Number.prototype.toString` on finite decimals. -/
def fracDigitsAux : Nat → Nat → Nat → List Char
  | 0, _, _ => []
  | _, 0, _ => []
  | fuel + 1, n, d =>
      let n10 := n * 10
      Nat.digitChar (n10 / d) :: fracDigitsAux fuel (n10 % d) d

/-- Models JavaScript `String(number)` for finite decimal values
(sign, integer part, fractional expansion; exponent notation for very
large/small magnitudes is outside the modelled fragment). -/
def jsNumToString (q : ℚ) : String :=
  let sign := if q < 0 then "-" else ""
  let n := q.num.natAbs
  let d := q.den
  let ip := n / d
  let rest := n % d
  sign ++ toString ip ++
    (if rest = 0 then "" else "." ++ String.mk (fracDigitsAux 20 rest d))

mutual
/-- Models the JavaScript `String(value)` conversion: `undefined` and
`null` become their literal names, arrays join their elements with commas
(with `null`/`undefined` elements joining as the empty string, as
`Array.prototype.join` does), plain objects become `"[object Object]"`. -/
def jsToString : JTree → String
  | .undef => "undefined"
  | .null => "null"
  | .bool b => if b then "true" else "false"
  | .num q => jsNumToString q
  | .str s => s
  | .arr xs => String.intercalate "," (jsJoinList xs)
  | .obj _ => "[object Object]"

/-- Element conversion used by `Array.prototype.join`. -/
def jsJoinList : List JTree → List String
  | [] => []
  | .undef :: xs => "" :: jsJoinList xs
  | .null :: xs => "" :: jsJoinList xs
  | x :: xs => jsToString x :: jsJoinList xs
end

/-- Digit list to natural number. -/
def digitsToNat (ds : List Char) : Nat :=
  ds.foldl (fun a c => a * 10 + (c.toNat - '0'.toNat)) 0

/-- Parse an optional exponent suffix (`e`/`E`, optional sign, digits);
`some e` when the remainder is a well-formed (possibly absent) exponent,
`none` when trailing garbage remains. -/
def parseExpPart : List Char → Option Int
  | [] => some 0
  | 'e' :: rest => parseSignedExp rest
  | 'E' :: rest => parseSignedExp rest
  | _ => none
where
  parseSignedExp : List Char → Option Int
    | '+' :: cs => parseExpDigits cs
    | '-' :: cs => (parseExpDigits cs).map Neg.neg
    | cs => parseExpDigits cs
  parseExpDigits (cs : List Char) : Option Int :=
    let (ds, rest) := cs.span Char.isDigit
    if ds.isEmpty then none
    else if rest.isEmpty then some (digitsToNat ds : Int)
    else none

/-- Parse an unsigned decimal numeric literal
(`digits [. digits] [exp]` or `. digits [exp]`). -/
def parseUnsignedDec (cs : List Char) : Option ℚ :=
  let (ints, rest1) := cs.span Char.isDigit
  match rest1 with
  | '.' :: rest2 =>
      let (fracs, rest3) := rest2.span Char.isDigit
      if ints.isEmpty && fracs.isEmpty then none
      else
        (parseExpPart rest3).map fun e =>
          ((digitsToNat ints : ℚ) +
            (digitsToNat fracs : ℚ) / ((10 : ℚ) ^ fracs.length)) * (10 : ℚ) ^ e
  | _ =>
      if ints.isEmpty then none
      else (parseExpPart rest1).map fun e => (digitsToNat ints : ℚ) * (10 : ℚ) ^ e

/-- Parse a signed decimal numeric literal. -/
def parseSignedDec : List Char → Option ℚ
  | '+' :: cs => parseUnsignedDec cs
  | '-' :: cs => (parseUnsignedDec cs).map Neg.neg
  | cs => parseUnsignedDec cs

/-- JavaScript whitespace (the common subset). -/
def isJsSpace (c : Char) : Bool :=
  c = ' ' || c = '\t' || c = '\n' || c = '\r'

/-- Models `String.prototype.trim`: strip leading and trailing
whitespace. -/
def jsTrim (s : String) : String :=
  String.mk (((s.toList.dropWhile isJsSpace).reverse.dropWhile isJsSpace).reverse)

/-- Models the JavaScript string-to-number conversion on decimal string
forms: surrounding whitespace is ignored, the empty (or all-whitespace)
string converts to `0`, and anything that is not a decimal literal is
NaN (`none`).  Hexadecimal and `Infinity` forms are outside the modelled
fragment. -/
def parseJsNumber (s : String) : Option ℚ :=
  let t := jsTrim s
  if t = "" then some 0 else parseSignedDec t.toList

/-- Models JavaScript `Number(value)` (`none` = NaN): `undefined` is NaN,
`null` is `0`, booleans are `1`/`0`, strings parse as decimal literals,
and arrays/objects convert via their `String(...)` form. -/
def jsToNumber : JTree → Option ℚ
  | .undef => none
  | .null => some 0
  | .bool b => some (if b then 1 else 0)
  | .num q => some q
  | .str s => parseJsNumber s
  | .arr xs => parseJsNumber (jsToString (.arr xs))
  | .obj ps => parseJsNumber (jsToString (.obj ps))

/-- Escape one character for a JSON string literal. -/
def jsonEscapeChar (c : Char) : String :=
  if c = '"' then "\\\""
  else if c = '\\' then "\\\\"
  else if c = '\n' then "\\n"
  else if c = '\r' then "\\r"
  else if c = '\t' then "\\t"
  else if c.toNat < 32 then
    "\\u00" ++ String.mk [Nat.digitChar (c.toNat / 16), Nat.digitChar (c.toNat % 16)]
  else String.mk [c]

/-- JSON string literal for `s`. -/
def jsonQuote (s : String) : String :=
  "\"" ++ String.join (s.toList.map jsonEscapeChar) ++ "\""

/-- Padding of `2 * n` spaces: the indentation `JSON.stringify(_, null, 2)` uses at
nesting depth `n`. -/
def jsonPad (n : Nat) : String :=
  String.mk (List.replicate (2 * n) ' ')

mutual
/-- Models `JSON.stringify(value, null, 2)`: `none` is JavaScript's
`undefined` result (top-level `undefined` input); `undefined` array
elements render as `null` and `undefined` object properties are
dropped. -/
def jsonStringify (indent : Nat) : JTree → Option String
  | .undef => none
  | .null => some "null"
  | .bool b => some (if b then "true" else "false")
  | .num q => some (jsNumToString q)
  | .str s => some (jsonQuote s)
  | .arr xs =>
      match jsonItems indent xs with
      | [] => some "[]"
      | items =>
          some ("[\n" ++ String.intercalate ",\n"
              (items.map (fun it => jsonPad (indent + 1) ++ it)) ++
            "\n" ++ jsonPad indent ++ "]")
  | .obj ps =>
      match jsonProps indent ps with
      | [] => some "\x7b\x7d"
      | items =>
          some ("\x7b\n" ++ String.intercalate ",\n"
              (items.map (fun it => jsonPad (indent + 1) ++ it)) ++
            "\n" ++ jsonPad indent ++ "\x7d")

/-- Rendered array elements (`undefined` renders as `null`). -/
def jsonItems (indent : Nat) : List JTree → List String
  | [] => []
  | x :: xs => ((jsonStringify (indent + 1) x).getD "null") :: jsonItems indent xs

/-- Rendered object properties (`undefined`-valued properties dropped). -/
def jsonProps (indent : Nat) : List (String × JTree) → List String
  | [] => []
  | (k, v) :: ps =>
      match jsonStringify (indent + 1) v with
      | none => jsonProps indent ps
      | some s => (jsonQuote k ++ ": " ++ s) :: jsonProps indent ps
end

/-- A Puck field definition: its declared `type`, its optional `label`,
and any further type-specific configuration (options, min/max, …),
modelled opaquely as key/value data. -/
structure Field where
  type : String
  label : Option String
  extra : List (String × String)
deriving DecidableEq, Repr

/-- The `isPrimitiveField` check from `packages/jsonata/src/types.ts`: the declared
type is one of the five primitive field types. -/
def isPrimitiveField (field : Field) : Bool :=
  ["text", "textarea", "number", "select", "radio"].contains field.type

/-- The `coerceValueForField` coercion from
`packages/jsonata/src/components/expression-field.tsx` (lines 30–57):
coerces an evaluation result to match the field's declared type.
The `.getD "undefined"` fallback on the stringify branch is unreachable:
that branch runs only for non-null `typeof "object"` values, which
`JSON.stringify` always renders. -/
def coerceValueForField (value : JTree) (field : Field) : JTree :=
  let fieldType := field.type
  if fieldType = "text" || fieldType = "textarea" then
    if jsTypeof value = "object" && !value.isNull then
      JTree.str ((jsonStringify 0 value).getD "undefined")
    else
      JTree.str (jsToString value)
  else if fieldType = "number" then
    if jsTypeof value = "number" then value
    else JTree.num ((jsToNumber value).getD 0)
  else if fieldType = "select" || fieldType = "radio" then
    JTree.str (jsToString value)
  else
    value

/-! ## Expression evaluator (`expression-resolver`, `evaluateExpression`) -/

/-- The scope a JSONata expression is evaluated against, as an opaque
value (the library passes it through verbatim). -/
abbrev ExpressionContext : Type := List (String × JTree)

/-- The `EvaluationResult` type from `packages/jsonata/src/types.ts`:
`{ success: boolean; value?: T; error?: string }`.  An absent `value`
is JavaScript `undefined`, which `JTree.undef` already represents. -/
structure EvaluationResult where
  success : Bool
  value : JTree
  error : Option String
deriving Repr

/-- Behaviour of the external `jsonata` engine on one call:
`jsonata(expression)` followed by `compiled.evaluate(context)` either
resolves to a value or throws with a message.  The engine is external to
the repository, so it is kept abstract as a parameter. -/
inductive EngineOutcome where
  | ok (value : JTree)
  | thrown (message : String)

/-- The `evaluateExpression` wrapper from the expression resolver
(`expression-field.tsx` lines 371–393): compile and evaluate, catching
any exception and converting it into a failure result with the prefixed
message.  The `try`/`catch` is modelled by casing on the engine
outcome. -/
def evaluateExpression (engine : String → ExpressionContext → EngineOutcome)
    (expression : String) (context : ExpressionContext) : EvaluationResult :=
  match engine expression context with
  | .ok result => { success := true, value := result, error := none }
  | .thrown errorMessage =>
      { success := false, value := JTree.undef,
        error := some ("JSONata evaluation failed: " ++ errorMessage) }

/-! ## The `ExpressionField` widget state machine

`ExpressionField` (the error-aware revision in
`components/ExpressionField.tsx`, lines 351–647) keeps, across renders:
the current mode, the monotonically increasing evaluation version
counter, and the latest wrapped value (`normalizedValueRef`).  The
asynchronous evaluation effect body and the completion continuation are
modelled as events of a state machine. -/

/-- The `ExpressionMode` type from `types.ts`. -/
inductive ExpressionMode where
  | static
  | dynamic
deriving DecidableEq, Repr

/-- The `ExpressionFieldValue` shape — the WrappedValue metadata:
`__mode__`, `__expression__?`, `__value__`, `__staticValue__?`,
`__error__?`. -/
structure WrappedValue where
  mode : ExpressionMode
  expression : Option String
  value : JTree
  staticValue : Option JTree
  error : Option String
deriving Repr

/-- The per-field state the widget holds across renders. -/
structure FieldState where
  /-- `evaluationVersion.current`: the race-protection counter. -/
  version : Nat
  /-- `currentMode` React state. -/
  mode : ExpressionMode
  /-- `normalizedValueRef.current`, also the last value emitted through
  `onChange`. -/
  wrapped : WrappedValue
deriving Repr

/-- Events acting on the field state:

* `evalStart` — one run of the synchronous part of the async-evaluation
  effect (lines 487–513): in dynamic mode with a non-empty trimmed
  expression it increments the version counter (the newly captured
  version is the new counter value); with an empty expression it clears
  any stored error; otherwise it does nothing.
* `evalComplete tag modeAtStart result` — the continuation after
  `evaluateExpression` resolves (lines 515–550), carrying the version
  and mode captured at start and the evaluation result. -/
inductive FieldEvent where
  | evalStart
  | evalComplete (tag : Nat) (modeAtStart : ExpressionMode) (result : EvaluationResult)

/-- The trimmed expression text, `debouncedExpression?.trim()`
(an absent expression trims to the empty string). -/
def trimmedExpression (w : WrappedValue) : String :=
  jsTrim (w.expression.getD "")

/-- Apply one event to the field state, following the async-evaluation
effect of `ExpressionField.tsx` (lines 487–551). -/
def fieldStep (field : Field) (s : FieldState) : FieldEvent → FieldState
  | .evalStart =>
      if s.mode ≠ ExpressionMode.dynamic then s
      else if trimmedExpression s.wrapped = "" then
        { s with wrapped := { s.wrapped with error := none } }
      else
        { s with version := s.version + 1 }
  | .evalComplete tag modeAtStart result =>
      if tag ≠ s.version || modeAtStart ≠ s.mode || s.mode ≠ ExpressionMode.dynamic then
        s
      else
        let latest := s.wrapped
        let applied : WrappedValue :=
          if result.success then
            { latest with
                mode := ExpressionMode.dynamic,
                value := coerceValueForField result.value field,
                error := none }
          else
            { latest with
                mode := ExpressionMode.dynamic,
                value := latest.value,
                error := some (result.error.getD "JSONata evaluation failed") }
        { s with wrapped := applied }

/-! ## Config transformer (`withExpressions` / `transformFields`) -/

/-- A component's field-definition map, as an ordered key/value list.
Entries may be `none`, modelling JavaScript `null`/`undefined` field
entries. -/
abbrev FieldMap : Type := List (String × Option Field)

/-- The `transformFields` transformation from the config transformer: skip `null` entries,
replace primitive fields with a `custom` field whose editor delegates to
`ExpressionField` and which preserves the original `label`, and pass
every other field through unchanged. -/
def transformFields : FieldMap → List (String × Field)
  | [] => []
  | (_, none) :: rest => transformFields rest
  | (key, some field) :: rest =>
      if isPrimitiveField field then
        (key, { type := "custom", label := field.label, extra := [] }) :: transformFields rest
      else
        (key, field) :: transformFields rest

/-- A Puck component definition, reduced to the data the transformer
inspects: its optional field map (plus the fact that its render function
gets wrapped, tracked by `renderWrapped`). -/
structure Component where
  fields : Option FieldMap
  renderWrapped : Bool
deriving Repr

/-- A Puck config: named components. -/
abbrev Config : Type := List (String × Component)

/-- The `withExpressions` entry point from the config transformer (`config-transformer`):
components without a field map pass through untouched; the rest get
their fields transformed and their render function wrapped with the
expression resolver. -/
def withExpressions (config : Config) : Config :=
  config.map fun (name, component) =>
    match component.fields with
    | none => (name, component)
    | some fieldMap =>
        (name,
          { fields := some ((transformFields fieldMap).map fun (k, f) => (k, some f)),
            renderWrapped := true })

/-- First-match lookup in an association list (JavaScript object keys are
unique, so this is object property lookup). -/
def alistLookup {α : Type} (key : String) : List (String × α) → Option α
  | [] => none
  | (k, v) :: rest => if k = key then some v else alistLookup key rest

/-! ## The tree resolver (`resolveExpressions`)

`resolveExpressions` walks arbitrary object graphs and its behaviour
depends on object identity (the `visited` `WeakSet`), so it is embedded
over an explicit heap: objects live at addresses, and a value is a
primitive or a reference.  The resolver only reads the input heap; the
source function performs no assignment to any input object.  Newly
produced containers are represented directly as an output tree — each
container the resolver builds (`data.map(...)`, `result = {}`) is used
in exactly one position, so the output graph of new containers is a
tree whose leaves are primitives or input objects returned unchanged by
the visited-set guard. -/

/-- Primitive (non-object) JavaScript values. -/
inductive JAtom where
  | undef : JAtom
  | null : JAtom
  | bool (b : Bool) : JAtom
  | num (q : ℚ) : JAtom
  | str (s : String) : JAtom
deriving DecidableEq, Repr

/-- A heap value: a primitive, or a reference to a heap object. -/
inductive JVal where
  | prim (p : JAtom)
  | ref (a : Nat)
deriving DecidableEq, Repr

/-- A heap object: an array or a plain object. -/
inductive JObj where
  | arr (elems : List JVal)
  | obj (props : List (String × JVal))
deriving DecidableEq, Repr

/-- A heap: the object at address `a` is `h[a]?`. -/
abbrev Heap : Type := List JObj

/-- The combination of `isExpressionFieldValue` and the subsequent
`__value__` access in the resolver: `some w` exactly when the property
list has a `__mode__` property equal to the string `"static"` or
`"dynamic"` and a `__value__` property `w`. -/
def wrappedValueProp (props : List (String × JVal)) : Option JVal :=
  match alistLookup "__mode__" props, alistLookup "__value__" props with
  | some (JVal.prim (JAtom.str m)), some w =>
      if m = "static" || m = "dynamic" then some w else none
  | _, _ => none

/-- A resolver result: primitives, input objects returned unchanged by
the visited-set guard (`inref`), and newly produced containers. -/
inductive OutVal where
  | prim (p : JAtom)
  | inref (a : Nat)
  | arr (elems : List OutVal)
  | obj (props : List (String × OutVal))
deriving Repr

/-- Thread the visited set through a list of recursive calls, as the
resolver's `data.map(...)` / `for key in data` loops do with the shared
mutable `WeakSet`. -/
def stThread {α β : Type} (f : List Nat → α → Option (List Nat × β)) :
    List Nat → List α → Option (List Nat × List β)
  | vis, [] => some (vis, [])
  | vis, x :: xs =>
      (f vis x).bind fun r1 =>
        (stThread f r1.1 xs).map fun r2 => (r2.1, r1.2 :: r2.2)

/-- The `resolveExpressions` walk from the expression resolver
(`expression-field.tsx` lines 432–483), one call with an explicit
visited set.  `fuel` bounds the recursion depth so the definition is
total; fuel exhaustion yields `none`, and the termination theorem shows
`h.length + 1` fuel never exhausts.  Branch order follows the source:
primitives returned as-is, visited-set hit returns the value unchanged,
the address is marked visited, then wrapped values are unwrapped
(recursing when the unwrapped value is an object), arrays map their
elements, and plain objects copy their properties. -/
def resolveVal (h : Heap) : Nat → List Nat → JVal → Option (List Nat × OutVal)
  | _, vis, .prim p => some (vis, .prim p)
  | 0, _, .ref _ => none
  | fuel + 1, vis, .ref a =>
      if a ∈ vis then some (vis, .inref a)
      else
        match h[a]? with
        | none => none
        | some (.arr elems) =>
            (stThread (fun v x => resolveVal h fuel v x) (a :: vis) elems).map
              fun r => (r.1, .arr r.2)
        | some (.obj props) =>
            match wrappedValueProp props with
            | some (JVal.prim p) => some (a :: vis, .prim p)
            | some (JVal.ref b) => resolveVal h fuel (a :: vis) (.ref b)
            | none =>
                (stThread (fun v (kv : String × JVal) =>
                      (resolveVal h fuel v kv.2).map fun r => (r.1, (kv.1, r.2)))
                    (a :: vis) props).map
                  fun r => (r.1, .obj r.2)

/-- The exported entry point: `resolveExpressions(data)` with a fresh
empty visited set and sufficient fuel. -/
def resolveExpressions (h : Heap) (data : JVal) : Option OutVal :=
  (resolveVal h (h.length + 1) [] data).map Prod.snd

mutual
/-- Addresses of input objects that occur in a resolver output — the
containers the resolver returned unchanged (aliases of input objects)
rather than newly allocated. -/
def outRefs : OutVal → List Nat
  | .prim _ => []
  | .inref a => [a]
  | .arr xs => outRefsList xs
  | .obj ps => outRefsProps ps

/-- Lifts `outRefs` over array elements. -/
def outRefsList : List OutVal → List Nat
  | [] => []
  | x :: xs => outRefs x ++ outRefsList xs

/-- Lifts `outRefs` over object properties. -/
def outRefsProps : List (String × OutVal) → List Nat
  | [] => []
  | kv :: ps => outRefs kv.2 ++ outRefsProps ps
end

/-- The WrappedValue shape test on an output object's property list. -/
def wrappedShapeOut (props : List (String × OutVal)) : Bool :=
  match alistLookup "__mode__" props, alistLookup "__value__" props with
  | some (OutVal.prim (JAtom.str m)), some _ => m = "static" || m = "dynamic"
  | _, _ => false

mutual
/-- No object anywhere in this output value matches the WrappedValue
shape. -/
def noWrappedOut : OutVal → Bool
  | .prim _ => true
  | .inref _ => true
  | .arr xs => noWrappedOutList xs
  | .obj ps => !wrappedShapeOut ps && noWrappedOutProps ps

/-- Lifts `noWrappedOut` over array elements. -/
def noWrappedOutList : List OutVal → Bool
  | [] => true
  | x :: xs => noWrappedOut x && noWrappedOutList xs

/-- Lifts `noWrappedOut` over object properties. -/
def noWrappedOutProps : List (String × OutVal) → Bool
  | [] => true
  | kv :: ps => noWrappedOut kv.2 && noWrappedOutProps ps
end

/-- Spec-side characterisation of a *plain acyclic JSON value*: the
structural reading of `v`, succeeding exactly when the graph reachable
from `v` is acyclic, shares no object between two positions, and
contains no object matching the WrappedValue shape.  It follows the
spec's words ("plain (non-wrapped) JSON value"): it fails (`none`) on a
revisited address instead of returning it, fails on a wrapped shape,
and otherwise reads containers structurally, so a success value is the
identity reading of the input. -/
def plainJsonReading (h : Heap) : Nat → List Nat → JVal → Option (List Nat × OutVal)
  | _, vis, .prim p => some (vis, .prim p)
  | 0, _, .ref _ => none
  | fuel + 1, vis, .ref a =>
      if a ∈ vis then none
      else
        match h[a]? with
        | none => none
        | some (.arr elems) =>
            (stThread (fun v x => plainJsonReading h fuel v x) (a :: vis) elems).map
              fun r => (r.1, .arr r.2)
        | some (.obj props) =>
            match wrappedValueProp props with
            | some _ => none
            | none =>
                (stThread (fun v (kv : String × JVal) =>
                      (plainJsonReading h fuel v kv.2).map fun r => (r.1, (kv.1, r.2)))
                    (a :: vis) props).map
                  fun r => (r.1, .obj r.2)

/-- Spec-side variant of the resolver that refuses shared or cyclic
references (fails where the source returns the visited object
unchanged), but still unwraps WrappedValues.  Where it succeeds, the
input was acyclic and sharing-free. -/
def resolveFresh (h : Heap) : Nat → List Nat → JVal → Option (List Nat × OutVal)
  | _, vis, .prim p => some (vis, .prim p)
  | 0, _, .ref _ => none
  | fuel + 1, vis, .ref a =>
      if a ∈ vis then none
      else
        match h[a]? with
        | none => none
        | some (.arr elems) =>
            (stThread (fun v x => resolveFresh h fuel v x) (a :: vis) elems).map
              fun r => (r.1, .arr r.2)
        | some (.obj props) =>
            match wrappedValueProp props with
            | some (JVal.prim p) => some (a :: vis, .prim p)
            | some (JVal.ref b) => resolveFresh h fuel (a :: vis) (.ref b)
            | none =>
                (stThread (fun v (kv : String × JVal) =>
                      (resolveFresh h fuel v kv.2).map fun r => (r.1, (kv.1, r.2)))
                    (a :: vis) props).map
                  fun r => (r.1, .obj r.2)

mutual
/-- Materialise a resolver output as objects in memory, extending the
heap: in JavaScript the resolver's result is itself an object graph, so
resolving a second time means running the resolver on that graph. -/
def graftVal (h : Heap) : OutVal → Heap × JVal
  | .prim p => (h, .prim p)
  | .inref a => (h, .ref a)
  | .arr xs =>
      let r := graftList h xs
      (r.1 ++ [JObj.arr r.2], .ref r.1.length)
  | .obj ps =>
      let r := graftProps h ps
      (r.1 ++ [JObj.obj r.2], .ref r.1.length)

/-- Lifts `graftVal` over array elements. -/
def graftList (h : Heap) : List OutVal → Heap × List JVal
  | [] => (h, [])
  | x :: xs =>
      let r1 := graftVal h x
      let r2 := graftList r1.1 xs
      (r2.1, r1.2 :: r2.2)

/-- Lifts `graftVal` over object properties. -/
def graftProps (h : Heap) : List (String × OutVal) → Heap × List (String × JVal)
  | [] => (h, [])
  | kv :: ps =>
      let r1 := graftVal h kv.2
      let r2 := graftProps r1.1 ps
      (r2.1, (kv.1, r1.2) :: r2.2)
end

/-- Composition `resolveExpressions(resolveExpressions(data))`: resolve, materialise
the result in memory, resolve again. -/
def resolveExpressionsTwice (h : Heap) (data : JVal) : Option OutVal :=
  (resolveExpressions h data).bind fun out =>
    let r := graftVal h out
    resolveExpressions r.1 r.2

/-- Addresses referenced by a heap object. -/
def objRefs : JObj → List Nat
  | .arr xs =>
      xs.filterMap fun v => match v with | .ref a => some a | .prim _ => none
  | .obj ps =>
      ps.filterMap fun kv => match kv.2 with | .ref a => some a | .prim _ => none

/-- The heap is closed: every reference stored in an object points at an
existing address (always true of a JavaScript object graph). -/
def wfHeap (h : Heap) : Bool :=
  h.all fun o => (objRefs o).all (· < h.length)

/-- The root value's reference (if any) points into the heap. -/
def valRefsOk (h : Heap) : JVal → Bool
  | .prim _ => true
  | .ref a => a < h.length

/-! ### Visited-set bookkeeping lemmas -/

/-- Holds when `vis'` extends `vis` (the `WeakSet` only ever grows). -/
def visExt (vis vis' : List Nat) : Prop := ∃ d, vis' = d ++ vis

theorem visExt_refl (vis : List Nat) : visExt vis vis := ⟨[], rfl⟩

theorem visExt_trans {v1 v2 v3 : List Nat} (h12 : visExt v1 v2) (h23 : visExt v2 v3) :
    visExt v1 v3 := by
  obtain ⟨d1, rfl⟩ := h12
  obtain ⟨d2, rfl⟩ := h23
  exact ⟨d2 ++ d1, (List.append_assoc d2 d1 v1).symm⟩

theorem visExt_cons (a : Nat) (vis : List Nat) : visExt vis (a :: vis) := ⟨[a], rfl⟩

theorem visExt_mem {vis vis' : List Nat} {a : Nat} (h : visExt vis vis') (ha : a ∈ vis) :
    a ∈ vis' := by
  obtain ⟨d, rfl⟩ := h
  exact List.mem_append_right d ha

theorem stThread_visExt {α β : Type} {f : List Nat → α → Option (List Nat × β)}
    (hf : ∀ vis x r, f vis x = some r → visExt vis r.1) :
    ∀ (xs : List α) (vis : List Nat) (r), stThread f vis xs = some r → visExt vis r.1 := by
  intro xs
  induction xs with
  | nil =>
      intro vis r hr
      simp only [stThread] at hr
      cases hr
      exact visExt_refl vis
  | cons x xs ih =>
      intro vis r hr
      simp only [stThread, Option.bind_eq_some, Option.map_eq_some'] at hr
      obtain ⟨r1, h1, r2, h2, hr2⟩ := hr
      subst hr2
      exact visExt_trans (hf vis x r1 h1) (ih r1.1 r2 h2)

theorem stThread_impl {α β : Type} {f g : List Nat → α → Option (List Nat × β)}
    (hfg : ∀ vis x r, f vis x = some r → g vis x = some r) :
    ∀ (xs : List α) (vis : List Nat) (r), stThread f vis xs = some r →
      stThread g vis xs = some r := by
  intro xs
  induction xs with
  | nil => intro vis r hr; exact hr
  | cons x xs ih =>
      intro vis r hr
      simp only [stThread, Option.bind_eq_some, Option.map_eq_some'] at hr ⊢
      obtain ⟨r1, h1, r2, h2, hr2⟩ := hr
      exact ⟨r1, hfg _ x r1 h1, r2, ih _ r2 h2, hr2⟩

theorem stThread_out {α β : Type} {f : List Nat → α → Option (List Nat × β)}
    {Q : β → Prop} (hf : ∀ vis x r, f vis x = some r → Q r.2) :
    ∀ (xs : List α) (vis : List Nat) (r), stThread f vis xs = some r →
      ∀ y ∈ r.2, Q y := by
  intro xs
  induction xs with
  | nil =>
      intro vis r hr y hy
      simp only [stThread] at hr
      cases hr
      simp at hy
  | cons x xs ih =>
      intro vis r hr y hy
      simp only [stThread, Option.bind_eq_some, Option.map_eq_some'] at hr
      obtain ⟨r1, h1, r2, h2, hr2⟩ := hr
      subst hr2
      rcases List.mem_cons.mp hy with hy | hy
      · exact hy ▸ hf vis x r1 h1
      · exact ih r1.1 r2 h2 y hy

theorem stThread_isSome {α β : Type} {f : List Nat → α → Option (List Nat × β)}
    {P : List Nat → Prop}
    (hpres : ∀ vis x r, f vis x = some r → P vis → P r.1) :
    ∀ (xs : List α) (vis : List Nat), P vis →
      (∀ x ∈ xs, ∀ vis', P vis' → (f vis' x).isSome) →
      (stThread f vis xs).isSome := by
  intro xs
  induction xs with
  | nil => intro vis _ _; simp [stThread]
  | cons x xs ih =>
      intro vis hP hall
      have h1 : (f vis x).isSome := hall x (List.mem_cons_self x xs) vis hP
      obtain ⟨⟨vis1, y⟩, h1eq⟩ := Option.isSome_iff_exists.mp h1
      have hP1 : P vis1 := hpres vis x _ h1eq hP
      have h2 : (stThread f vis1 xs).isSome :=
        ih vis1 hP1 (fun z hz => hall z (List.mem_cons_of_mem x hz))
      obtain ⟨⟨vis2, ys⟩, h2eq⟩ := Option.isSome_iff_exists.mp h2
      simp [stThread, h1eq, h2eq]

/-- The resolver only adds to the visited set. -/
theorem resolveVal_visExt (h : Heap) :
    ∀ (fuel : Nat) (vis : List Nat) (v : JVal) (r : List Nat × OutVal),
      resolveVal h fuel vis v = some r → visExt vis r.1 := by
  intro fuel
  induction fuel with
  | zero =>
      intro vis v r hr
      cases v with
      | prim p => cases hr; exact visExt_refl vis
      | ref a => exact Option.noConfusion hr
  | succ fuel ih =>
      intro vis v r hr
      cases v with
      | prim p => cases hr; exact visExt_refl vis
      | ref a =>
        simp only [resolveVal] at hr
        by_cases hav : a ∈ vis
        · rw [if_pos hav] at hr
          cases hr
          exact visExt_refl vis
        · rw [if_neg hav] at hr
          cases hobj : h[a]? with
          | none => rw [hobj] at hr; exact Option.noConfusion hr
          | some o =>
            rw [hobj] at hr
            cases o with
            | arr elems =>
              simp only [Option.map_eq_some'] at hr
              obtain ⟨r2, hst, hr2⟩ := hr
              subst hr2
              exact visExt_trans (visExt_cons a vis)
                (stThread_visExt (fun vis' x rr hx => ih vis' x rr hx) elems (a :: vis) r2 hst)
            | obj props =>
              dsimp only at hr
              cases hw : wrappedValueProp props with
              | none =>
                rw [hw] at hr
                simp only [Option.map_eq_some'] at hr
                obtain ⟨r2, hst, hr2⟩ := hr
                subst hr2
                have hf : ∀ (vis' : List Nat) (kv : String × JVal) (rr : List Nat × (String × OutVal)),
                    (resolveVal h fuel vis' kv.2).map (fun r3 => (r3.1, (kv.1, r3.2))) = some rr →
                    visExt vis' rr.1 := by
                  intro vis' kv rr hkv
                  simp only [Option.map_eq_some'] at hkv
                  obtain ⟨r3, h3, hr3⟩ := hkv
                  subst hr3
                  exact ih vis' kv.2 r3 h3
                exact visExt_trans (visExt_cons a vis)
                  (stThread_visExt hf props (a :: vis) r2 hst)
              | some w =>
                rw [hw] at hr
                cases w with
                | prim p =>
                    cases hr
                    exact visExt_cons a vis
                | ref b =>
                    exact visExt_trans (visExt_cons a vis) (ih (a :: vis) (.ref b) r hr)

/-! ### Branch equations for the resolver and the spec-side checkers -/

theorem resolveVal_prim (h : Heap) (fuel : Nat) (vis : List Nat) (p : JAtom) :
    resolveVal h fuel vis (.prim p) = some (vis, .prim p) := by
  cases fuel <;> rfl

theorem resolveVal_visited (h : Heap) (fuel : Nat) {vis : List Nat} {a : Nat}
    (hmem : a ∈ vis) :
    resolveVal h (fuel + 1) vis (.ref a) = some (vis, .inref a) := by
  simp [resolveVal, hmem]

theorem resolveVal_missing (h : Heap) (fuel : Nat) {vis : List Nat} {a : Nat}
    (hmem : a ∉ vis) (hobj : h[a]? = none) :
    resolveVal h (fuel + 1) vis (.ref a) = none := by
  simp [resolveVal, hmem, hobj]

theorem resolveVal_arr (h : Heap) (fuel : Nat) {vis : List Nat} {a : Nat}
    {elems : List JVal} (hmem : a ∉ vis) (hobj : h[a]? = some (.arr elems)) :
    resolveVal h (fuel + 1) vis (.ref a) =
      (stThread (fun v x => resolveVal h fuel v x) (a :: vis) elems).map
        fun r => (r.1, .arr r.2) := by
  simp [resolveVal, hmem, hobj]

theorem resolveVal_objPlain (h : Heap) (fuel : Nat) {vis : List Nat} {a : Nat}
    {props : List (String × JVal)} (hmem : a ∉ vis)
    (hobj : h[a]? = some (.obj props)) (hw : wrappedValueProp props = none) :
    resolveVal h (fuel + 1) vis (.ref a) =
      (stThread (fun v (kv : String × JVal) =>
            (resolveVal h fuel v kv.2).map fun r => (r.1, (kv.1, r.2)))
          (a :: vis) props).map
        fun r => (r.1, .obj r.2) := by
  simp [resolveVal, hmem, hobj, hw]

theorem resolveVal_wrappedPrim (h : Heap) (fuel : Nat) {vis : List Nat} {a : Nat}
    {props : List (String × JVal)} {p : JAtom} (hmem : a ∉ vis)
    (hobj : h[a]? = some (.obj props))
    (hw : wrappedValueProp props = some (.prim p)) :
    resolveVal h (fuel + 1) vis (.ref a) = some (a :: vis, .prim p) := by
  simp [resolveVal, hmem, hobj, hw]

theorem resolveVal_wrappedRef (h : Heap) (fuel : Nat) {vis : List Nat} {a : Nat}
    {props : List (String × JVal)} {b : Nat} (hmem : a ∉ vis)
    (hobj : h[a]? = some (.obj props))
    (hw : wrappedValueProp props = some (.ref b)) :
    resolveVal h (fuel + 1) vis (.ref a) = resolveVal h fuel (a :: vis) (.ref b) := by
  simp [resolveVal, hmem, hobj, hw]

theorem plainJsonReading_prim (h : Heap) (fuel : Nat) (vis : List Nat) (p : JAtom) :
    plainJsonReading h fuel vis (.prim p) = some (vis, .prim p) := by
  cases fuel <;> rfl

theorem plainJsonReading_visited (h : Heap) (fuel : Nat) {vis : List Nat} {a : Nat}
    (hmem : a ∈ vis) :
    plainJsonReading h (fuel + 1) vis (.ref a) = none := by
  simp [plainJsonReading, hmem]

theorem plainJsonReading_missing (h : Heap) (fuel : Nat) {vis : List Nat} {a : Nat}
    (hmem : a ∉ vis) (hobj : h[a]? = none) :
    plainJsonReading h (fuel + 1) vis (.ref a) = none := by
  simp [plainJsonReading, hmem, hobj]

theorem plainJsonReading_arr (h : Heap) (fuel : Nat) {vis : List Nat} {a : Nat}
    {elems : List JVal} (hmem : a ∉ vis) (hobj : h[a]? = some (.arr elems)) :
    plainJsonReading h (fuel + 1) vis (.ref a) =
      (stThread (fun v x => plainJsonReading h fuel v x) (a :: vis) elems).map
        fun r => (r.1, .arr r.2) := by
  simp [plainJsonReading, hmem, hobj]

theorem plainJsonReading_objPlain (h : Heap) (fuel : Nat) {vis : List Nat} {a : Nat}
    {props : List (String × JVal)} (hmem : a ∉ vis)
    (hobj : h[a]? = some (.obj props)) (hw : wrappedValueProp props = none) :
    plainJsonReading h (fuel + 1) vis (.ref a) =
      (stThread (fun v (kv : String × JVal) =>
            (plainJsonReading h fuel v kv.2).map fun r => (r.1, (kv.1, r.2)))
          (a :: vis) props).map
        fun r => (r.1, .obj r.2) := by
  simp [plainJsonReading, hmem, hobj, hw]

theorem plainJsonReading_wrapped (h : Heap) (fuel : Nat) {vis : List Nat} {a : Nat}
    {props : List (String × JVal)} {w : JVal} (hmem : a ∉ vis)
    (hobj : h[a]? = some (.obj props)) (hw : wrappedValueProp props = some w) :
    plainJsonReading h (fuel + 1) vis (.ref a) = none := by
  simp [plainJsonReading, hmem, hobj, hw]

theorem resolveFresh_prim (h : Heap) (fuel : Nat) (vis : List Nat) (p : JAtom) :
    resolveFresh h fuel vis (.prim p) = some (vis, .prim p) := by
  cases fuel <;> rfl

theorem resolveFresh_visited (h : Heap) (fuel : Nat) {vis : List Nat} {a : Nat}
    (hmem : a ∈ vis) :
    resolveFresh h (fuel + 1) vis (.ref a) = none := by
  simp [resolveFresh, hmem]

theorem resolveFresh_missing (h : Heap) (fuel : Nat) {vis : List Nat} {a : Nat}
    (hmem : a ∉ vis) (hobj : h[a]? = none) :
    resolveFresh h (fuel + 1) vis (.ref a) = none := by
  simp [resolveFresh, hmem, hobj]

theorem resolveFresh_arr (h : Heap) (fuel : Nat) {vis : List Nat} {a : Nat}
    {elems : List JVal} (hmem : a ∉ vis) (hobj : h[a]? = some (.arr elems)) :
    resolveFresh h (fuel + 1) vis (.ref a) =
      (stThread (fun v x => resolveFresh h fuel v x) (a :: vis) elems).map
        fun r => (r.1, .arr r.2) := by
  simp [resolveFresh, hmem, hobj]

theorem resolveFresh_objPlain (h : Heap) (fuel : Nat) {vis : List Nat} {a : Nat}
    {props : List (String × JVal)} (hmem : a ∉ vis)
    (hobj : h[a]? = some (.obj props)) (hw : wrappedValueProp props = none) :
    resolveFresh h (fuel + 1) vis (.ref a) =
      (stThread (fun v (kv : String × JVal) =>
            (resolveFresh h fuel v kv.2).map fun r => (r.1, (kv.1, r.2)))
          (a :: vis) props).map
        fun r => (r.1, .obj r.2) := by
  simp [resolveFresh, hmem, hobj, hw]

theorem resolveFresh_wrappedPrim (h : Heap) (fuel : Nat) {vis : List Nat} {a : Nat}
    {props : List (String × JVal)} {p : JAtom} (hmem : a ∉ vis)
    (hobj : h[a]? = some (.obj props))
    (hw : wrappedValueProp props = some (.prim p)) :
    resolveFresh h (fuel + 1) vis (.ref a) = some (a :: vis, .prim p) := by
  simp [resolveFresh, hmem, hobj, hw]

theorem resolveFresh_wrappedRef (h : Heap) (fuel : Nat) {vis : List Nat} {a : Nat}
    {props : List (String × JVal)} {b : Nat} (hmem : a ∉ vis)
    (hobj : h[a]? = some (.obj props))
    (hw : wrappedValueProp props = some (.ref b)) :
    resolveFresh h (fuel + 1) vis (.ref a) = resolveFresh h fuel (a :: vis) (.ref b) := by
  simp [resolveFresh, hmem, hobj, hw]

/-- Where the plain-value reading succeeds, the resolver computes
exactly that reading: on acyclic, sharing-free, wrapper-free input the
resolver is the structural identity copy. -/
theorem plainJsonReading_resolves (h : Heap) :
    ∀ (fuel : Nat) (vis : List Nat) (v : JVal) (r : List Nat × OutVal),
      plainJsonReading h fuel vis v = some r → resolveVal h fuel vis v = some r := by
  intro fuel
  induction fuel with
  | zero =>
      intro vis v r hr
      cases v with
      | prim p => exact hr
      | ref a => exact Option.noConfusion hr
  | succ fuel ih =>
      intro vis v r hr
      cases v with
      | prim p => exact hr
      | ref a =>
        by_cases hav : a ∈ vis
        · rw [plainJsonReading_visited h fuel hav] at hr
          exact Option.noConfusion hr
        · cases hobj : h[a]? with
          | none =>
              rw [plainJsonReading_missing h fuel hav hobj] at hr
              exact Option.noConfusion hr
          | some o =>
            cases o with
            | arr elems =>
                rw [plainJsonReading_arr h fuel hav hobj] at hr
                rw [resolveVal_arr h fuel hav hobj]
                simp only [Option.map_eq_some'] at hr ⊢
                obtain ⟨r2, hst, hr2⟩ := hr
                exact ⟨r2, stThread_impl (fun vis' x rr hx => ih vis' x rr hx)
                  elems (a :: vis) r2 hst, hr2⟩
            | obj props =>
                cases hw : wrappedValueProp props with
                | some w =>
                    rw [plainJsonReading_wrapped h fuel hav hobj hw] at hr
                    exact Option.noConfusion hr
                | none =>
                    rw [plainJsonReading_objPlain h fuel hav hobj hw] at hr
                    rw [resolveVal_objPlain h fuel hav hobj hw]
                    simp only [Option.map_eq_some'] at hr ⊢
                    obtain ⟨r2, hst, hr2⟩ := hr
                    refine ⟨r2, stThread_impl ?_ props (a :: vis) r2 hst, hr2⟩
                    intro vis' kv rr hkv
                    simp only [Option.map_eq_some'] at hkv ⊢
                    obtain ⟨r3, h3, hr3⟩ := hkv
                    exact ⟨r3, ih vis' kv.2 r3 h3, hr3⟩

/-- Where the sharing-refusing resolver succeeds, the actual resolver
computes the same result (their branches agree except on a visited-set
hit, where the former fails). -/
theorem resolveFresh_resolves (h : Heap) :
    ∀ (fuel : Nat) (vis : List Nat) (v : JVal) (r : List Nat × OutVal),
      resolveFresh h fuel vis v = some r → resolveVal h fuel vis v = some r := by
  intro fuel
  induction fuel with
  | zero =>
      intro vis v r hr
      cases v with
      | prim p => exact hr
      | ref a => exact Option.noConfusion hr
  | succ fuel ih =>
      intro vis v r hr
      cases v with
      | prim p => exact hr
      | ref a =>
        by_cases hav : a ∈ vis
        · rw [resolveFresh_visited h fuel hav] at hr
          exact Option.noConfusion hr
        · cases hobj : h[a]? with
          | none =>
              rw [resolveFresh_missing h fuel hav hobj] at hr
              exact Option.noConfusion hr
          | some o =>
            cases o with
            | arr elems =>
                rw [resolveFresh_arr h fuel hav hobj] at hr
                rw [resolveVal_arr h fuel hav hobj]
                simp only [Option.map_eq_some'] at hr ⊢
                obtain ⟨r2, hst, hr2⟩ := hr
                exact ⟨r2, stThread_impl (fun vis' x rr hx => ih vis' x rr hx)
                  elems (a :: vis) r2 hst, hr2⟩
            | obj props =>
                cases hw : wrappedValueProp props with
                | some w =>
                    cases w with
                    | prim p =>
                        rw [resolveFresh_wrappedPrim h fuel hav hobj hw] at hr
                        rw [resolveVal_wrappedPrim h fuel hav hobj hw]
                        exact hr
                    | ref b =>
                        rw [resolveFresh_wrappedRef h fuel hav hobj hw] at hr
                        rw [resolveVal_wrappedRef h fuel hav hobj hw]
                        exact ih (a :: vis) (.ref b) r hr
                | none =>
                    rw [resolveFresh_objPlain h fuel hav hobj hw] at hr
                    rw [resolveVal_objPlain h fuel hav hobj hw]
                    simp only [Option.map_eq_some'] at hr ⊢
                    obtain ⟨r2, hst, hr2⟩ := hr
                    refine ⟨r2, stThread_impl ?_ props (a :: vis) r2 hst, hr2⟩
                    intro vis' kv rr hkv
                    simp only [Option.map_eq_some'] at hkv ⊢
                    obtain ⟨r3, h3, hr3⟩ := hkv
                    exact ⟨r3, ih vis' kv.2 r3 h3, hr3⟩

theorem mem_outRefsList {a : Nat} :
    ∀ {ys : List OutVal}, a ∈ outRefsList ys ↔ ∃ y ∈ ys, a ∈ outRefs y := by
  intro ys
  induction ys with
  | nil => simp [outRefsList]
  | cons y ys ih => simp [outRefsList, List.mem_append, ih]

theorem mem_outRefsProps {a : Nat} :
    ∀ {ps : List (String × OutVal)},
      a ∈ outRefsProps ps ↔ ∃ kv ∈ ps, a ∈ outRefs kv.2 := by
  intro ps
  induction ps with
  | nil => simp [outRefsProps]
  | cons kv ps ih => simp [outRefsProps, List.mem_append, ih]

theorem outRefsList_eq_nil {ys : List OutVal} (hys : ∀ y ∈ ys, outRefs y = []) :
    outRefsList ys = [] := by
  induction ys with
  | nil => rfl
  | cons y ys ih =>
      simp only [outRefsList, List.append_eq_nil]
      exact ⟨hys y (List.mem_cons_self y ys),
        ih (fun z hz => hys z (List.mem_cons_of_mem y hz))⟩

theorem outRefsProps_eq_nil {ps : List (String × OutVal)}
    (hps : ∀ kv ∈ ps, outRefs kv.2 = []) : outRefsProps ps = [] := by
  induction ps with
  | nil => rfl
  | cons kv ps ih =>
      simp only [outRefsProps, List.append_eq_nil]
      exact ⟨hps kv (List.mem_cons_self kv ps),
        ih (fun z hz => hps z (List.mem_cons_of_mem kv hz))⟩

/-- Output of the sharing-refusing resolver aliases no input object. -/
theorem resolveFresh_noRefs (h : Heap) :
    ∀ (fuel : Nat) (vis : List Nat) (v : JVal) (r : List Nat × OutVal),
      resolveFresh h fuel vis v = some r → outRefs r.2 = [] := by
  intro fuel
  induction fuel with
  | zero =>
      intro vis v r hr
      cases v with
      | prim p => cases hr; rfl
      | ref a => exact Option.noConfusion hr
  | succ fuel ih =>
      intro vis v r hr
      cases v with
      | prim p => cases hr; rfl
      | ref a =>
        by_cases hav : a ∈ vis
        · rw [resolveFresh_visited h fuel hav] at hr
          exact Option.noConfusion hr
        · cases hobj : h[a]? with
          | none =>
              rw [resolveFresh_missing h fuel hav hobj] at hr
              exact Option.noConfusion hr
          | some o =>
            cases o with
            | arr elems =>
                rw [resolveFresh_arr h fuel hav hobj] at hr
                simp only [Option.map_eq_some'] at hr
                obtain ⟨r2, hst, hr2⟩ := hr
                subst hr2
                exact outRefsList_eq_nil
                  (stThread_out (fun vis' x rr hx => ih vis' x rr hx) elems (a :: vis) r2 hst)
            | obj props =>
                cases hw : wrappedValueProp props with
                | some w =>
                    cases w with
                    | prim p =>
                        rw [resolveFresh_wrappedPrim h fuel hav hobj hw] at hr
                        cases hr
                        rfl
                    | ref b =>
                        rw [resolveFresh_wrappedRef h fuel hav hobj hw] at hr
                        exact ih (a :: vis) (.ref b) r hr
                | none =>
                    rw [resolveFresh_objPlain h fuel hav hobj hw] at hr
                    simp only [Option.map_eq_some'] at hr
                    obtain ⟨r2, hst, hr2⟩ := hr
                    subst hr2
                    refine outRefsProps_eq_nil (stThread_out ?_ props (a :: vis) r2 hst)
                    intro vis' kv rr hkv
                    simp only [Option.map_eq_some'] at hkv
                    obtain ⟨r3, h3, hr3⟩ := hkv
                    subst hr3
                    exact ih vis' kv.2 r3 h3

/-- Output of the plain-value reading aliases no input object. -/
theorem plainJsonReading_noRefs (h : Heap) :
    ∀ (fuel : Nat) (vis : List Nat) (v : JVal) (r : List Nat × OutVal),
      plainJsonReading h fuel vis v = some r → outRefs r.2 = [] := by
  intro fuel
  induction fuel with
  | zero =>
      intro vis v r hr
      cases v with
      | prim p => cases hr; rfl
      | ref a => exact Option.noConfusion hr
  | succ fuel ih =>
      intro vis v r hr
      cases v with
      | prim p => cases hr; rfl
      | ref a =>
        by_cases hav : a ∈ vis
        · rw [plainJsonReading_visited h fuel hav] at hr
          exact Option.noConfusion hr
        · cases hobj : h[a]? with
          | none =>
              rw [plainJsonReading_missing h fuel hav hobj] at hr
              exact Option.noConfusion hr
          | some o =>
            cases o with
            | arr elems =>
                rw [plainJsonReading_arr h fuel hav hobj] at hr
                simp only [Option.map_eq_some'] at hr
                obtain ⟨r2, hst, hr2⟩ := hr
                subst hr2
                exact outRefsList_eq_nil
                  (stThread_out (fun vis' x rr hx => ih vis' x rr hx) elems (a :: vis) r2 hst)
            | obj props =>
                cases hw : wrappedValueProp props with
                | some w =>
                    rw [plainJsonReading_wrapped h fuel hav hobj hw] at hr
                    exact Option.noConfusion hr
                | none =>
                    rw [plainJsonReading_objPlain h fuel hav hobj hw] at hr
                    simp only [Option.map_eq_some'] at hr
                    obtain ⟨r2, hst, hr2⟩ := hr
                    subst hr2
                    refine outRefsProps_eq_nil (stThread_out ?_ props (a :: vis) r2 hst)
                    intro vis' kv rr hkv
                    simp only [Option.map_eq_some'] at hkv
                    obtain ⟨r3, h3, hr3⟩ := hkv
                    subst hr3
                    exact ih vis' kv.2 r3 h3

theorem stThread_refs {α β : Type} {f : List Nat → α → Option (List Nat × β)}
    (out : β → List Nat)
    (hf : ∀ vis x r, f vis x = some r → ∀ b ∈ out r.2, b ∈ r.1)
    (hmono : ∀ vis x r, f vis x = some r → visExt vis r.1) :
    ∀ (xs : List α) (vis : List Nat) (r), stThread f vis xs = some r →
      ∀ y ∈ r.2, ∀ b ∈ out y, b ∈ r.1 := by
  intro xs
  induction xs with
  | nil =>
      intro vis r hr y hy
      simp only [stThread] at hr
      cases hr
      simp at hy
  | cons x xs ih =>
      intro vis r hr y hy
      simp only [stThread, Option.bind_eq_some, Option.map_eq_some'] at hr
      obtain ⟨r1, h1, r2, h2, hr2⟩ := hr
      subst hr2
      rcases List.mem_cons.mp hy with hy | hy
      · intro b hb
        have hb1 : b ∈ out r1.2 := hy ▸ hb
        exact visExt_mem (stThread_visExt hmono xs r1.1 r2 h2) (hf vis x r1 h1 b hb1)
      · exact ih r1.1 r2 h2 y hy

/-- Every input object aliased in the resolver's output was in the
visited set the resolver finished with: aliasing happens only through
the visited-set (cycle/sharing) guard. -/
theorem resolveVal_refs (h : Heap) :
    ∀ (fuel : Nat) (vis : List Nat) (v : JVal) (r : List Nat × OutVal),
      resolveVal h fuel vis v = some r → ∀ b ∈ outRefs r.2, b ∈ r.1 := by
  intro fuel
  induction fuel with
  | zero =>
      intro vis v r hr
      cases v with
      | prim p => cases hr; intro b hb; simp [outRefs] at hb
      | ref a => exact Option.noConfusion hr
  | succ fuel ih =>
      intro vis v r hr
      cases v with
      | prim p => cases hr; intro b hb; simp [outRefs] at hb
      | ref a =>
        by_cases hav : a ∈ vis
        · rw [resolveVal_visited h fuel hav] at hr
          cases hr
          intro b hb
          simp only [outRefs, List.mem_singleton] at hb
          exact hb ▸ hav
        · cases hobj : h[a]? with
          | none =>
              rw [resolveVal_missing h fuel hav hobj] at hr
              exact Option.noConfusion hr
          | some o =>
            cases o with
            | arr elems =>
                rw [resolveVal_arr h fuel hav hobj] at hr
                simp only [Option.map_eq_some'] at hr
                obtain ⟨r2, hst, hr2⟩ := hr
                subst hr2
                intro b hb
                simp only [outRefs] at hb
                obtain ⟨y, hy, hby⟩ := mem_outRefsList.mp hb
                exact stThread_refs outRefs
                  (fun vis' x rr hx => ih vis' x rr hx)
                  (fun vis' x rr hx => resolveVal_visExt h fuel vis' x rr hx)
                  elems (a :: vis) r2 hst y hy b hby
            | obj props =>
                cases hw : wrappedValueProp props with
                | some w =>
                    cases w with
                    | prim p =>
                        rw [resolveVal_wrappedPrim h fuel hav hobj hw] at hr
                        cases hr
                        intro b hb
                        simp [outRefs] at hb
                    | ref c =>
                        rw [resolveVal_wrappedRef h fuel hav hobj hw] at hr
                        exact ih (a :: vis) (.ref c) r hr
                | none =>
                    rw [resolveVal_objPlain h fuel hav hobj hw] at hr
                    simp only [Option.map_eq_some'] at hr
                    obtain ⟨r2, hst, hr2⟩ := hr
                    subst hr2
                    intro b hb
                    simp only [outRefs] at hb
                    obtain ⟨kv, hkv, hbkv⟩ := mem_outRefsProps.mp hb
                    refine stThread_refs (fun kv : String × OutVal => outRefs kv.2)
                      ?_ ?_ props (a :: vis) r2 hst kv hkv b hbkv
                    · intro vis' kv' rr hx
                      simp only [Option.map_eq_some'] at hx
                      obtain ⟨r3, h3, hr3⟩ := hx
                      subst hr3
                      exact ih vis' kv'.2 r3 h3
                    · intro vis' kv' rr hx
                      simp only [Option.map_eq_some'] at hx
                      obtain ⟨r3, h3, hr3⟩ := hx
                      subst hr3
                      exact resolveVal_visExt h fuel vis' kv'.2 r3 h3

/-! ### Termination: enough fuel always exists -/

/-- Number of heap addresses not yet visited. -/
def unvis (h : Heap) (vis : List Nat) : Nat :=
  ((Finset.range h.length).filter (fun a => a ∉ vis)).card

theorem unvis_le_of_visExt {h : Heap} {vis vis' : List Nat} (hext : visExt vis vis') :
    unvis h vis' ≤ unvis h vis := by
  apply Finset.card_le_card
  intro a ha
  simp only [Finset.mem_filter, Finset.mem_range] at ha ⊢
  exact ⟨ha.1, fun hmem => ha.2 (visExt_mem hext hmem)⟩

theorem unvis_cons_lt {h : Heap} {vis : List Nat} {a : Nat}
    (ha : a < h.length) (hav : a ∉ vis) : unvis h (a :: vis) < unvis h vis := by
  apply Finset.card_lt_card
  constructor
  · intro b hb
    simp only [Finset.mem_filter, Finset.mem_range, List.mem_cons] at hb ⊢
    exact ⟨hb.1, fun hmem => hb.2 (Or.inr hmem)⟩
  · intro hsub
    have ha1 : a ∈ (Finset.range h.length).filter (fun b => b ∉ vis) := by
      simp only [Finset.mem_filter, Finset.mem_range]
      exact ⟨ha, hav⟩
    have ha2 := hsub ha1
    simp at ha2

theorem alistLookup_mem {α : Type} {key : String} {v : α} :
    ∀ {ps : List (String × α)}, alistLookup key ps = some v → (key, v) ∈ ps := by
  intro ps
  induction ps with
  | nil => intro hl; exact Option.noConfusion hl
  | cons kv ps ih =>
      intro hl
      simp only [alistLookup] at hl
      by_cases hk : kv.1 = key
      · rw [if_pos hk] at hl
        cases hl
        subst hk
        simp
      · rw [if_neg hk] at hl
        exact List.mem_cons_of_mem kv (ih hl)

theorem wrappedValueProp_mem {props : List (String × JVal)} {w : JVal}
    (hw : wrappedValueProp props = some w) : ("__value__", w) ∈ props := by
  unfold wrappedValueProp at hw
  split at hw
  · split at hw
    · rename_i m w0 hm hv hcond
      cases hw
      exact alistLookup_mem hv
    · exact Option.noConfusion hw
  · exact Option.noConfusion hw

theorem objRefs_arr_mem {b : Nat} {elems : List JVal} (hmem : JVal.ref b ∈ elems) :
    b ∈ objRefs (.arr elems) := by
  simp only [objRefs, List.mem_filterMap]
  exact ⟨.ref b, hmem, rfl⟩

theorem objRefs_obj_mem {b : Nat} {props : List (String × JVal)} {kv : String × JVal}
    (hmem : kv ∈ props) (hkv : kv.2 = JVal.ref b) : b ∈ objRefs (.obj props) := by
  simp only [objRefs, List.mem_filterMap]
  exact ⟨kv, hmem, by rw [hkv]⟩

/-- With fuel exceeding the number of unvisited heap addresses, the
resolver never exhausts its fuel: it terminates on every input,
cyclic object graphs included. -/
theorem resolveVal_isSome (h : Heap) (hwf : wfHeap h = true) :
    ∀ (fuel : Nat) (vis : List Nat) (v : JVal), valRefsOk h v = true →
      unvis h vis < fuel → (resolveVal h fuel vis v).isSome := by
  intro fuel
  induction fuel with
  | zero => intro vis v _ hlt; exact absurd hlt (Nat.not_lt_zero _)
  | succ fuel ih =>
      intro vis v hv hlt
      cases v with
      | prim p => rw [resolveVal_prim]; rfl
      | ref a =>
        by_cases hav : a ∈ vis
        · rw [resolveVal_visited h fuel hav]; rfl
        · have ha : a < h.length := by simpa [valRefsOk] using hv
          obtain ⟨o, hobj⟩ : ∃ o, h[a]? = some o := by
            rw [List.getElem?_eq_getElem ha]; exact ⟨_, rfl⟩
          have homem : o ∈ h := List.getElem?_mem hobj
          have hchild : ∀ b ∈ objRefs o, b < h.length := by
            have hwf2 := List.all_eq_true.mp hwf o homem
            intro b hb
            simpa using List.all_eq_true.mp hwf2 b hb
          have hlt2 : unvis h (a :: vis) < fuel :=
            Nat.lt_of_lt_of_le (unvis_cons_lt ha hav) (Nat.lt_succ_iff.mp hlt)
          cases o with
          | arr elems =>
              rw [resolveVal_arr h fuel hav hobj]
              have hst : (stThread (fun v x => resolveVal h fuel v x)
                  (a :: vis) elems).isSome := by
                refine stThread_isSome (P := fun vis' => unvis h vis' < fuel)
                  ?_ elems (a :: vis) hlt2 ?_
                · intro vis' x rr hx hP
                  exact Nat.lt_of_le_of_lt
                    (unvis_le_of_visExt (resolveVal_visExt h fuel vis' x rr hx)) hP
                · intro x hx vis' hP
                  refine ih vis' x ?_ hP
                  cases x with
                  | prim p => rfl
                  | ref b =>
                      simpa [valRefsOk] using hchild b (objRefs_arr_mem hx)
              obtain ⟨r2, hr2⟩ := Option.isSome_iff_exists.mp hst
              rw [hr2]
              rfl
          | obj props =>
              cases hw : wrappedValueProp props with
              | some w =>
                  cases w with
                  | prim p => rw [resolveVal_wrappedPrim h fuel hav hobj hw]; rfl
                  | ref b =>
                      rw [resolveVal_wrappedRef h fuel hav hobj hw]
                      refine ih (a :: vis) (.ref b) ?_ hlt2
                      simpa [valRefsOk] using
                        hchild b (objRefs_obj_mem (wrappedValueProp_mem hw) rfl)
              | none =>
                  rw [resolveVal_objPlain h fuel hav hobj hw]
                  have hst : (stThread (fun v (kv : String × JVal) =>
                      (resolveVal h fuel v kv.2).map fun r => (r.1, (kv.1, r.2)))
                      (a :: vis) props).isSome := by
                    refine stThread_isSome (P := fun vis' => unvis h vis' < fuel)
                      ?_ props (a :: vis) hlt2 ?_
                    · intro vis' kv rr hx hP
                      simp only [Option.map_eq_some'] at hx
                      obtain ⟨r3, h3, hr3⟩ := hx
                      subst hr3
                      exact Nat.lt_of_le_of_lt
                        (unvis_le_of_visExt (resolveVal_visExt h fuel vis' kv.2 r3 h3)) hP
                    · intro kv hkv vis' hP
                      have hres : (resolveVal h fuel vis' kv.2).isSome := by
                        refine ih vis' kv.2 ?_ hP
                        cases hkv2 : kv.2 with
                        | prim p => rfl
                        | ref b =>
                            simpa [valRefsOk] using hchild b (objRefs_obj_mem hkv hkv2)
                      obtain ⟨r3, hr3⟩ := Option.isSome_iff_exists.mp hres
                      rw [hr3]
                      rfl
                  obtain ⟨r2, hr2⟩ := Option.isSome_iff_exists.mp hst
                  rw [hr2]
                  rfl

/-! ### Grafted results resolve to themselves -/

/-- Holds when `h'` extends `h` with newly allocated objects. -/
def heapExt (h h' : Heap) : Prop := ∃ d, h' = h ++ d

theorem heapExt_refl (h : Heap) : heapExt h h := ⟨[], (List.append_nil h).symm⟩

theorem heapExt_trans {h1 h2 h3 : Heap} (h12 : heapExt h1 h2) (h23 : heapExt h2 h3) :
    heapExt h1 h3 := by
  obtain ⟨d1, rfl⟩ := h12
  obtain ⟨d2, rfl⟩ := h23
  exact ⟨d1 ++ d2, List.append_assoc h1 d1 d2⟩

theorem heapExt_getElem {h h' : Heap} (hext : heapExt h h') {a : Nat}
    (ha : a < h.length) : h'[a]? = h[a]? := by
  obtain ⟨d, rfl⟩ := hext
  rw [List.getElem?_append, if_pos ha]

mutual
/-- Number of objects `graftVal` allocates. -/
def growthVal : OutVal → Nat
  | .prim _ => 0
  | .inref _ => 0
  | .arr xs => growthList xs + 1
  | .obj ps => growthProps ps + 1

/-- Number of objects `graftList` allocates. -/
def growthList : List OutVal → Nat
  | [] => 0
  | x :: xs => growthVal x + growthList xs

/-- Number of objects `graftProps` allocates. -/
def growthProps : List (String × OutVal) → Nat
  | [] => 0
  | kv :: ps => growthVal kv.2 + growthProps ps
end

mutual
theorem graftVal_ext : ∀ (h : Heap) (o : OutVal),
    ∃ d, (graftVal h o).1 = h ++ d ∧ d.length = growthVal o
  | h, .prim p => ⟨[], by simp [graftVal, growthVal]⟩
  | h, .inref a => ⟨[], by simp [graftVal, growthVal]⟩
  | h, .arr xs => by
      obtain ⟨d, hd, hl⟩ := graftList_ext h xs
      refine ⟨d ++ [JObj.arr (graftList h xs).2], ?_, ?_⟩
      · simp only [graftVal, hd, List.append_assoc]
      · simp [growthVal, hl]
  | h, .obj ps => by
      obtain ⟨d, hd, hl⟩ := graftProps_ext h ps
      refine ⟨d ++ [JObj.obj (graftProps h ps).2], ?_, ?_⟩
      · simp only [graftVal, hd, List.append_assoc]
      · simp [growthVal, hl]

theorem graftList_ext : ∀ (h : Heap) (xs : List OutVal),
    ∃ d, (graftList h xs).1 = h ++ d ∧ d.length = growthList xs
  | h, [] => ⟨[], by simp [graftList, growthList]⟩
  | h, x :: xs => by
      obtain ⟨d1, hd1, hl1⟩ := graftVal_ext h x
      obtain ⟨d2, hd2, hl2⟩ := graftList_ext (graftVal h x).1 xs
      refine ⟨d1 ++ d2, ?_, ?_⟩
      · simp only [graftList]
        rw [hd2, hd1, List.append_assoc]
      · simp [growthList, hl1, hl2]

theorem graftProps_ext : ∀ (h : Heap) (ps : List (String × OutVal)),
    ∃ d, (graftProps h ps).1 = h ++ d ∧ d.length = growthProps ps
  | h, [] => ⟨[], by simp [graftProps, growthProps]⟩
  | h, kv :: ps => by
      obtain ⟨d1, hd1, hl1⟩ := graftVal_ext h kv.2
      obtain ⟨d2, hd2, hl2⟩ := graftProps_ext (graftVal h kv.2).1 ps
      refine ⟨d1 ++ d2, ?_, ?_⟩
      · simp only [graftProps]
        rw [hd2, hd1, List.append_assoc]
      · simp [growthProps, hl1, hl2]
end

theorem graftVal_length (h : Heap) (o : OutVal) :
    ((graftVal h o).1).length = h.length + growthVal o := by
  obtain ⟨d, hd, hl⟩ := graftVal_ext h o
  simp [hd, hl]

theorem graftList_length (h : Heap) (xs : List OutVal) :
    ((graftList h xs).1).length = h.length + growthList xs := by
  obtain ⟨d, hd, hl⟩ := graftList_ext h xs
  simp [hd, hl]

theorem graftProps_length (h : Heap) (ps : List (String × OutVal)) :
    ((graftProps h ps).1).length = h.length + growthProps ps := by
  obtain ⟨d, hd, hl⟩ := graftProps_ext h ps
  simp [hd, hl]

theorem graftVal_heapExt (h : Heap) (o : OutVal) : heapExt h (graftVal h o).1 := by
  obtain ⟨d, hd, _⟩ := graftVal_ext h o
  exact ⟨d, hd⟩

theorem graftList_heapExt (h : Heap) (xs : List OutVal) : heapExt h (graftList h xs).1 := by
  obtain ⟨d, hd, _⟩ := graftList_ext h xs
  exact ⟨d, hd⟩

theorem graftProps_heapExt (h : Heap) (ps : List (String × OutVal)) :
    heapExt h (graftProps h ps).1 := by
  obtain ⟨d, hd, _⟩ := graftProps_ext h ps
  exact ⟨d, hd⟩

/-- Property lookup in grafted properties is defined exactly where it is
defined in the original output properties. -/
theorem graftProps_lookup_isSome (key : String) :
    ∀ (ps : List (String × OutVal)) (h : Heap),
      (alistLookup key (graftProps h ps).2).isSome
        = (alistLookup key ps).isSome := by
  intro ps
  induction ps with
  | nil => intro h; rfl
  | cons kv ps ih =>
      intro h
      simp only [graftProps, alistLookup]
      by_cases hk : kv.1 = key
      · rw [if_pos hk, if_pos hk]
        rfl
      · rw [if_neg hk, if_neg hk]
        exact ih (graftVal h kv.2).1

/-- Property lookup in grafted properties yields a primitive exactly
where the original output properties held that primitive (grafting maps
primitives to themselves and containers/aliases to references). -/
theorem graftProps_lookup_prim (key : String) (p : JAtom) :
    ∀ (ps : List (String × OutVal)) (h : Heap),
      alistLookup key (graftProps h ps).2 = some (JVal.prim p)
        ↔ alistLookup key ps = some (OutVal.prim p) := by
  intro ps
  induction ps with
  | nil => intro h; simp [graftProps, alistLookup]
  | cons kv ps ih =>
      intro h
      simp only [graftProps, alistLookup]
      by_cases hk : kv.1 = key
      · rw [if_pos hk, if_pos hk]
        cases kv2 : kv.2 with
        | prim q => simp [graftVal]
        | inref a => simp [graftVal]
        | arr xs => simp [graftVal]
        | obj ps2 => simp [graftVal]
      · rw [if_neg hk, if_neg hk]
        exact ih (graftVal h kv.2).1

/-- Inversion of a successful WrappedValue-shape probe. -/
theorem wrappedValueProp_some_inv {props : List (String × JVal)} {w : JVal}
    (hw : wrappedValueProp props = some w) :
    ∃ m, alistLookup "__mode__" props = some (JVal.prim (JAtom.str m)) ∧
      (m = "static" ∨ m = "dynamic") ∧
      alistLookup "__value__" props = some w := by
  unfold wrappedValueProp at hw
  split at hw
  · split at hw
    · rename_i m w0 hm hv hcond
      cases hw
      refine ⟨m, hm, ?_, hv⟩
      have hcond2 : (m = "static" || m = "dynamic") = true := by simpa using hcond
      rcases Bool.or_eq_true_iff.mp hcond2 with hc | hc
      · exact Or.inl (by simpa using hc)
      · exact Or.inr (by simpa using hc)
    · exact Option.noConfusion hw
  · exact Option.noConfusion hw

/-- Grafted properties match the WrappedValue shape only if the output
properties matched it. -/
theorem graftProps_wrapped_none {ps : List (String × OutVal)} (h : Heap)
    (hshape : wrappedShapeOut ps = false) :
    wrappedValueProp (graftProps h ps).2 = none := by
  cases hwv : wrappedValueProp (graftProps h ps).2 with
  | none => rfl
  | some w =>
      exfalso
      obtain ⟨m, hm, hms, hv⟩ := wrappedValueProp_some_inv hwv
      have hm2 : alistLookup "__mode__" ps = some (OutVal.prim (JAtom.str m)) :=
        (graftProps_lookup_prim "__mode__" (JAtom.str m) ps h).mp hm
      have hv2 : (alistLookup "__value__" ps).isSome = true := by
        rw [← graftProps_lookup_isSome "__value__" ps h, hv]
        rfl
      obtain ⟨w2, hw2⟩ := Option.isSome_iff_exists.mp hv2
      rw [wrappedShapeOut, hm2, hw2] at hshape
      rcases hms with hms | hms <;> simp [hms] at hshape

mutual
/-- A resolver output with no aliased containers and no WrappedValue
shape, materialised in memory, resolves to itself. -/
theorem graftVal_resolves :
    ∀ (o : OutVal) (H pre : Heap) (vis : List Nat) (fuel : Nat),
      heapExt (graftVal pre o).1 H →
      outRefs o = [] → noWrappedOut o = true →
      (∀ b ∈ vis, b < pre.length ∨ pre.length + growthVal o ≤ b) →
      growthVal o < fuel →
      ∃ d, resolveVal H fuel vis (graftVal pre o).2 = some (d ++ vis, o) ∧
        ∀ b ∈ d, pre.length ≤ b ∧ b < pre.length + growthVal o
  | .prim p, H, pre, vis, fuel => by
      intro hext hrefs hnw hvis hfuel
      exact ⟨[], by simp [graftVal, resolveVal_prim], by simp⟩
  | .inref a, H, pre, vis, fuel => by
      intro hext hrefs hnw hvis hfuel
      simp [outRefs] at hrefs
  | .arr xs, H, pre, vis, fuel => by
      intro hext hrefs hnw hvis hfuel
      simp only [outRefs] at hrefs
      simp only [noWrappedOut] at hnw
      simp only [growthVal] at hvis hfuel
      have hgrow : growthVal (OutVal.arr xs) = growthList xs + 1 := rfl
      have hgl := graftList_length pre xs
      cases fuel with
      | zero => exact absurd hfuel (Nat.not_lt_zero _)
      | succ f =>
        have hA : (graftList pre xs).1.length ∉ vis := by
          intro hmem
          rcases hvis _ hmem with hlt | hge <;> omega
        have hlook : H[(graftList pre xs).1.length]? =
            some (JObj.arr (graftList pre xs).2) := by
          have hlt : (graftList pre xs).1.length <
              ((graftList pre xs).1 ++ [JObj.arr (graftList pre xs).2]).length := by
            simp
          have := heapExt_getElem (h := (graftList pre xs).1 ++
            [JObj.arr (graftList pre xs).2]) (by simpa [graftVal] using hext) hlt
          rw [this]
          exact List.getElem?_concat_length _ _
        obtain ⟨d, hst, hb⟩ := graftList_resolves xs H pre
          ((graftList pre xs).1.length :: vis) f
          (heapExt_trans ⟨[JObj.arr (graftList pre xs).2], rfl⟩
            (by simpa [graftVal] using hext))
          hrefs hnw
          (by
            intro b hbmem
            rcases List.mem_cons.mp hbmem with hbeq | hbmem
            · right; omega
            · rcases hvis b hbmem with hlt | hge
              · exact Or.inl hlt
              · right; omega)
          (by omega)
        refine ⟨d ++ [(graftList pre xs).1.length], ?_, ?_⟩
        · show resolveVal H (f + 1) vis (graftVal pre (.arr xs)).2 = _
          have hval : (graftVal pre (OutVal.arr xs)).2 =
              JVal.ref (graftList pre xs).1.length := by simp [graftVal]
          rw [hval, resolveVal_arr H f hA hlook, hst]
          simp [List.append_assoc]
        · intro b hbmem
          rcases List.mem_append.mp hbmem with hbmem | hbeq
          · have := hb b hbmem
            omega
          · simp only [List.mem_singleton] at hbeq
            subst hbeq
            omega
  | .obj ps, H, pre, vis, fuel => by
      intro hext hrefs hnw hvis hfuel
      simp only [outRefs] at hrefs
      simp only [noWrappedOut, Bool.and_eq_true, Bool.not_eq_true'] at hnw
      obtain ⟨hshape, hnwp⟩ := hnw
      simp only [growthVal] at hvis hfuel
      have hgrow : growthVal (OutVal.obj ps) = growthProps ps + 1 := rfl
      have hgl := graftProps_length pre ps
      cases fuel with
      | zero => exact absurd hfuel (Nat.not_lt_zero _)
      | succ f =>
        have hA : (graftProps pre ps).1.length ∉ vis := by
          intro hmem
          rcases hvis _ hmem with hlt | hge <;> omega
        have hlook : H[(graftProps pre ps).1.length]? =
            some (JObj.obj (graftProps pre ps).2) := by
          have hlt : (graftProps pre ps).1.length <
              ((graftProps pre ps).1 ++ [JObj.obj (graftProps pre ps).2]).length := by
            simp
          have := heapExt_getElem (h := (graftProps pre ps).1 ++
            [JObj.obj (graftProps pre ps).2]) (by simpa [graftVal] using hext) hlt
          rw [this]
          exact List.getElem?_concat_length _ _
        obtain ⟨d, hst, hb⟩ := graftProps_resolves ps H pre
          ((graftProps pre ps).1.length :: vis) f
          (heapExt_trans ⟨[JObj.obj (graftProps pre ps).2], rfl⟩
            (by simpa [graftVal] using hext))
          hrefs hnwp
          (by
            intro b hbmem
            rcases List.mem_cons.mp hbmem with hbeq | hbmem
            · right; omega
            · rcases hvis b hbmem with hlt | hge
              · exact Or.inl hlt
              · right; omega)
          (by omega)
        refine ⟨d ++ [(graftProps pre ps).1.length], ?_, ?_⟩
        · show resolveVal H (f + 1) vis (graftVal pre (.obj ps)).2 = _
          have hval : (graftVal pre (OutVal.obj ps)).2 =
              JVal.ref (graftProps pre ps).1.length := by simp [graftVal]
          rw [hval, resolveVal_objPlain H f hA hlook
            (graftProps_wrapped_none pre hshape), hst]
          simp [List.append_assoc]
        · intro b hbmem
          rcases List.mem_append.mp hbmem with hbmem | hbeq
          · have := hb b hbmem
            omega
          · simp only [List.mem_singleton] at hbeq
            subst hbeq
            omega

/-- Lifts `graftVal_resolves` over array elements. -/
theorem graftList_resolves :
    ∀ (xs : List OutVal) (H pre : Heap) (vis : List Nat) (fuel : Nat),
      heapExt (graftList pre xs).1 H →
      outRefsList xs = [] → noWrappedOutList xs = true →
      (∀ b ∈ vis, b < pre.length ∨ pre.length + growthList xs ≤ b) →
      growthList xs < fuel →
      ∃ d, stThread (fun v x => resolveVal H fuel v x) vis (graftList pre xs).2 =
          some (d ++ vis, xs) ∧
        ∀ b ∈ d, pre.length ≤ b ∧ b < pre.length + growthList xs
  | [], H, pre, vis, fuel => by
      intro hext hrefs hnw hvis hfuel
      exact ⟨[], by simp [graftList, stThread], by simp⟩
  | x :: xs, H, pre, vis, fuel => by
      intro hext hrefs hnw hvis hfuel
      simp only [outRefsList, List.append_eq_nil] at hrefs
      simp only [noWrappedOutList, Bool.and_eq_true] at hnw
      simp only [growthList] at hvis hfuel
      have hgrow : growthList (x :: xs) = growthVal x + growthList xs := rfl
      have hgv := graftVal_length pre x
      obtain ⟨d1, hr1, hb1⟩ := graftVal_resolves x H pre vis fuel
        (heapExt_trans (graftList_heapExt (graftVal pre x).1 xs)
          (by simpa [graftList] using hext))
        hrefs.1 hnw.1
        (by
          intro b hbmem
          rcases hvis b hbmem with hlt | hge
          · exact Or.inl hlt
          · right; omega)
        (by omega)
      obtain ⟨d2, hr2, hb2⟩ := graftList_resolves xs H (graftVal pre x).1
        (d1 ++ vis) fuel
        (by simpa [graftList] using hext)
        hrefs.2 hnw.2
        (by
          intro b hbmem
          rcases List.mem_append.mp hbmem with hbmem | hbmem
          · have := hb1 b hbmem
            left
            omega
          · rcases hvis b hbmem with hlt | hge
            · left; omega
            · right; omega)
        (by omega)
      refine ⟨d2 ++ d1, ?_, ?_⟩
      · have hgr : (graftList pre (x :: xs)).2 =
            (graftVal pre x).2 :: (graftList (graftVal pre x).1 xs).2 := by
          simp [graftList]
        rw [hgr]
        simp only [stThread, hr1, Option.some_bind, hr2, Option.map_some']
        simp [List.append_assoc]
      · intro b hbmem
        rcases List.mem_append.mp hbmem with hbmem | hbmem
        · have := hb2 b hbmem
          omega
        · have := hb1 b hbmem
          omega

/-- Lifts `graftVal_resolves` over object properties. -/
theorem graftProps_resolves :
    ∀ (ps : List (String × OutVal)) (H pre : Heap) (vis : List Nat) (fuel : Nat),
      heapExt (graftProps pre ps).1 H →
      outRefsProps ps = [] → noWrappedOutProps ps = true →
      (∀ b ∈ vis, b < pre.length ∨ pre.length + growthProps ps ≤ b) →
      growthProps ps < fuel →
      ∃ d, stThread (fun v (kv : String × JVal) =>
            (resolveVal H fuel v kv.2).map fun r => (r.1, (kv.1, r.2)))
          vis (graftProps pre ps).2 = some (d ++ vis, ps) ∧
        ∀ b ∈ d, pre.length ≤ b ∧ b < pre.length + growthProps ps
  | [], H, pre, vis, fuel => by
      intro hext hrefs hnw hvis hfuel
      exact ⟨[], by simp [graftProps, stThread], by simp⟩
  | kv :: ps, H, pre, vis, fuel => by
      intro hext hrefs hnw hvis hfuel
      simp only [outRefsProps, List.append_eq_nil] at hrefs
      simp only [noWrappedOutProps, Bool.and_eq_true] at hnw
      simp only [growthProps] at hvis hfuel
      have hgrow : growthProps (kv :: ps) = growthVal kv.2 + growthProps ps := rfl
      have hgv := graftVal_length pre kv.2
      obtain ⟨d1, hr1, hb1⟩ := graftVal_resolves kv.2 H pre vis fuel
        (heapExt_trans (graftProps_heapExt (graftVal pre kv.2).1 ps)
          (by simpa [graftProps] using hext))
        hrefs.1 hnw.1
        (by
          intro b hbmem
          rcases hvis b hbmem with hlt | hge
          · exact Or.inl hlt
          · right; omega)
        (by omega)
      obtain ⟨d2, hr2, hb2⟩ := graftProps_resolves ps H (graftVal pre kv.2).1
        (d1 ++ vis) fuel
        (by simpa [graftProps] using hext)
        hrefs.2 hnw.2
        (by
          intro b hbmem
          rcases List.mem_append.mp hbmem with hbmem | hbmem
          · have := hb1 b hbmem
            left
            omega
          · rcases hvis b hbmem with hlt | hge
            · left; omega
            · right; omega)
        (by omega)
      refine ⟨d2 ++ d1, ?_, ?_⟩
      · have hgr : (graftProps pre (kv :: ps)).2 =
            (kv.1, (graftVal pre kv.2).2) :: (graftProps (graftVal pre kv.2).1 ps).2 := by
          simp [graftProps]
        rw [hgr]
        simp only [stThread, hr1, Option.map_some', Option.some_bind, hr2]
        simp [List.append_assoc]
      · intro b hbmem
        rcases List.mem_append.mp hbmem with hbmem | hbmem
        · have := hb2 b hbmem
          omega
        · have := hb1 b hbmem
          omega
end

/-! ## Claim theorems -/

/-- C2: `evaluateExpression` never throws — it is total over every
engine outcome: an engine exception is converted into a failure result
whose error message contains "evaluation failed", and an engine value
into a success result; in particular any engine that rejects
`"invalid..syntax.."` produces such a failure result for it. -/
theorem evaluateExpression_never_throws
    (engine : String → ExpressionContext → EngineOutcome)
    (expression : String) (context : ExpressionContext) :
    (∀ message, engine expression context = .thrown message →
      (evaluateExpression engine expression context).success = false ∧
      ∃ pre post, (evaluateExpression engine expression context).error =
        some (pre ++ ("evaluation failed" ++ post))) ∧
    (∀ value, engine expression context = .ok value →
      (evaluateExpression engine expression context).success = true ∧
      (evaluateExpression engine expression context).error = none) := by
  constructor
  · intro message hm
    simp only [evaluateExpression, hm]
    refine ⟨trivial, "JSONata ", ": " ++ message, ?_⟩
    rw [← String.append_assoc, ← String.append_assoc]
    rfl
  · intro value hv
    simp [evaluateExpression, hv]

/-- A model JSONata engine for witnesses: it rejects
`"invalid..syntax.."` with a syntax error, as the real parser does, and
resolves everything else to `undefined`. -/
def witnessEngine : String → ExpressionContext → EngineOutcome :=
  fun expression _ =>
    if expression = "invalid..syntax.." then
      .thrown "Syntax error: \"..\""
    else
      .ok JTree.undef

theorem evaluateExpression_never_throws_witness :
    (evaluateExpression witnessEngine "invalid..syntax.." []).success = false ∧
    ∃ pre post, (evaluateExpression witnessEngine "invalid..syntax.." []).error =
      some (pre ++ ("evaluation failed" ++ post)) :=
  (evaluateExpression_never_throws witnessEngine "invalid..syntax.." []).1
    "Syntax error: \"..\"" (by rfl)

/-- C4: the coercion table of `coerceValueForField`.  For text/textarea
fields, objects and arrays become their pretty-printed JSON string and
every other value its string conversion; for number fields numbers pass
through and non-numbers are numerically converted with fallback `0`;
select/radio force a string; any other field type passes the value
through unchanged.  The two concrete table probes of the specification
(`{a:1}` against text, `'abc'` against number) are included. -/
theorem coerceValueForField_table (field : Field) (value : JTree) :
    ((field.type = "text" ∨ field.type = "textarea") →
      (((∃ xs, value = .arr xs) ∨ (∃ ps, value = .obj ps)) →
        ∃ s, jsonStringify 0 value = some s ∧
          coerceValueForField value field = .str s) ∧
      ((∀ xs, value ≠ .arr xs) → (∀ ps, value ≠ .obj ps) →
        coerceValueForField value field = .str (jsToString value))) ∧
    (field.type = "number" →
      ((∃ q, value = .num q) → coerceValueForField value field = value) ∧
      ((∀ q, value ≠ .num q) →
        coerceValueForField value field = .num ((jsToNumber value).getD 0))) ∧
    ((field.type = "select" ∨ field.type = "radio") →
      coerceValueForField value field = .str (jsToString value)) ∧
    (field.type ≠ "text" → field.type ≠ "textarea" → field.type ≠ "number" →
      field.type ≠ "select" → field.type ≠ "radio" →
      coerceValueForField value field = value) ∧
    coerceValueForField (.obj [("a", .num 1)]) { type := "text", label := none, extra := [] }
      = .str "\x7b\n  \"a\": 1\n\x7d" ∧
    coerceValueForField (.str "abc") { type := "number", label := none, extra := [] }
      = .num 0 := by
  refine ⟨?_, ?_, ?_, ?_, by rfl, by rfl⟩
  · intro htype
    have htb : (field.type = "text" || field.type = "textarea") = true := by
      rcases htype with ht | ht <;> simp [ht]
    constructor
    · intro hco
      rcases hco with ⟨xs, rfl⟩ | ⟨ps, rfl⟩
      · refine ⟨(jsonStringify 0 (.arr xs)).getD "undefined", ?_, ?_⟩
        · cases hxs : jsonItems 0 xs with
          | nil => simp [jsonStringify, hxs]
          | cons i it => simp [jsonStringify, hxs]
        · simp [coerceValueForField, htb, jsTypeof, JTree.isNull]
      · refine ⟨(jsonStringify 0 (.obj ps)).getD "undefined", ?_, ?_⟩
        · cases hps : jsonProps 0 ps with
          | nil => simp [jsonStringify, hps]
          | cons i it => simp [jsonStringify, hps]
        · simp [coerceValueForField, htb, jsTypeof, JTree.isNull]
    · intro harr hobj
      cases value with
      | undef => simp [coerceValueForField, htb, jsTypeof]
      | null => simp [coerceValueForField, htb, jsTypeof, JTree.isNull]
      | bool b => simp [coerceValueForField, htb, jsTypeof]
      | num q => simp [coerceValueForField, htb, jsTypeof]
      | str s => simp [coerceValueForField, htb, jsTypeof]
      | arr xs => exact absurd rfl (harr xs)
      | obj ps => exact absurd rfl (hobj ps)
  · intro htype
    have htb1 : (field.type = "text" || field.type = "textarea") = false := by
      simp [htype]
    constructor
    · rintro ⟨q, rfl⟩
      simp [coerceValueForField, htb1, htype, jsTypeof]
    · intro hnum
      cases value with
      | undef => simp [coerceValueForField, htb1, htype, jsTypeof]
      | null => simp [coerceValueForField, htb1, htype, jsTypeof]
      | bool b => simp [coerceValueForField, htb1, htype, jsTypeof]
      | num q => exact absurd rfl (hnum q)
      | str s => simp [coerceValueForField, htb1, htype, jsTypeof]
      | arr xs => simp [coerceValueForField, htb1, htype, jsTypeof]
      | obj ps => simp [coerceValueForField, htb1, htype, jsTypeof]
  · intro htype
    have htb1 : (field.type = "text" || field.type = "textarea") = false := by
      rcases htype with ht | ht <;> simp [ht]
    have htb2 : field.type = "number" ↔ False := by
      rcases htype with ht | ht <;> simp [ht]
    have htb3 : (field.type = "select" || field.type = "radio") = true := by
      rcases htype with ht | ht <;> simp [ht]
    simp [coerceValueForField, htb1, htb2, htb3]
  · intro h1 h2 h3 h4 h5
    simp [coerceValueForField, h1, h2, h3, h4, h5]

theorem coerceValueForField_table_witness :
    coerceValueForField (.bool true) { type := "select", label := none, extra := [] }
      = .str (jsToString (.bool true)) :=
  (coerceValueForField_table { type := "select", label := none, extra := [] }
    (.bool true)).2.2.1 (Or.inl rfl)

/-- C10: for text/textarea fields the coercion maps `undefined` to the
literal string `"undefined"` and `null` to `"null"`; consequently a
fresh successful evaluation whose result is `undefined` overwrites the
field's value with the string `"undefined"` — not with an empty string
and not by retaining the previous value. -/
theorem coerce_undefined_text (field : Field)
    (htype : field.type = "text" ∨ field.type = "textarea")
    (s : FieldState) (hdyn : s.mode = ExpressionMode.dynamic) :
    coerceValueForField .undef field = .str "undefined" ∧
    coerceValueForField .null field = .str "null" ∧
    (fieldStep field s (.evalComplete s.version ExpressionMode.dynamic
        { success := true, value := .undef, error := none })).wrapped.value
      = .str "undefined" ∧
    JTree.str "undefined" ≠ JTree.str "" := by
  have htb : (field.type = "text" || field.type = "textarea") = true := by
    rcases htype with ht | ht <;> simp [ht]
  have hcu : coerceValueForField .undef field = .str "undefined" := by
    simp [coerceValueForField, htb, jsTypeof, jsToString]
  have hcn : coerceValueForField .null field = .str "null" := by
    simp [coerceValueForField, htb, jsTypeof, JTree.isNull, jsToString]
  refine ⟨hcu, hcn, ?_, by simp⟩
  simp [fieldStep, hdyn, hcu]

/-- Concrete fixtures for witnesses. -/
def textField : Field := { type := "text", label := none, extra := [] }

/-- A dynamic-mode wrapped value with a stored expression, an old value
and a stale error. -/
def sampleWrapped : WrappedValue :=
  { mode := ExpressionMode.dynamic
    expression := some "a.b"
    value := JTree.str "old"
    staticValue := none
    error := some "stale error" }

/-- A dynamic-mode field state at version 3. -/
def sampleState : FieldState :=
  { version := 3, mode := ExpressionMode.dynamic, wrapped := sampleWrapped }

theorem coerce_undefined_text_witness :
    coerceValueForField .undef textField = .str "undefined" ∧
    coerceValueForField .null textField = .str "null" ∧
    (fieldStep textField sampleState
        (.evalComplete 3 ExpressionMode.dynamic
          { success := true, value := .undef, error := none })).wrapped.value
      = .str "undefined" ∧
    JTree.str "undefined" ≠ JTree.str "" :=
  coerce_undefined_text textField (Or.inl rfl) sampleState rfl

/-- C1: a non-stale completion applied in dynamic mode updates the
WrappedValue as specified — on success the value becomes the
type-coerced result and the error is cleared; on failure the value is
left unchanged (the last good value is retained) and the error is set
to the failure message. -/
theorem evalComplete_applies (field : Field) (s : FieldState) (tag : Nat)
    (modeAtStart : ExpressionMode) (result : EvaluationResult)
    (htag : tag = s.version) (hmode : modeAtStart = s.mode)
    (hdyn : s.mode = ExpressionMode.dynamic) :
    (result.success = true →
      (fieldStep field s (.evalComplete tag modeAtStart result)).wrapped.value
        = coerceValueForField result.value field ∧
      (fieldStep field s (.evalComplete tag modeAtStart result)).wrapped.error = none) ∧
    (result.success = false →
      (fieldStep field s (.evalComplete tag modeAtStart result)).wrapped.value
        = s.wrapped.value ∧
      (fieldStep field s (.evalComplete tag modeAtStart result)).wrapped.error
        = some (result.error.getD "JSONata evaluation failed")) := by
  subst htag
  subst hmode
  constructor
  · intro hsucc
    simp [fieldStep, hdyn, hsucc]
  · intro hfail
    simp [fieldStep, hdyn, hfail]

theorem evalComplete_applies_witness :
    ((true : Bool) = true →
      (fieldStep textField sampleState
          (.evalComplete 3 ExpressionMode.dynamic
            { success := true, value := .num 7, error := none })).wrapped.value
        = coerceValueForField (.num 7) textField ∧
      (fieldStep textField sampleState
          (.evalComplete 3 ExpressionMode.dynamic
            { success := true, value := .num 7, error := none })).wrapped.error
        = none) ∧
    ((true : Bool) = false →
      (fieldStep textField sampleState
          (.evalComplete 3 ExpressionMode.dynamic
            { success := true, value := .num 7, error := none })).wrapped.value
        = sampleState.wrapped.value ∧
      (fieldStep textField sampleState
          (.evalComplete 3 ExpressionMode.dynamic
            { success := true, value := .num 7, error := none })).wrapped.error
        = some "JSONata evaluation failed") :=
  evalComplete_applies textField sampleState 3 ExpressionMode.dynamic
    { success := true, value := .num 7, error := none } rfl rfl rfl

/-- C3: stale-result suppression.  The version counter is monotone, a
completion whose captured version differs from the current counter
changes nothing, and in the edit-A-then-edit-B scenario (B's evaluation
starting before A's completes) A's late completion is discarded while
B's completion installs B's coerced result — last issued wins, even
when A completes after B. -/
theorem stale_result_suppression (field : Field) (s0 : FieldState)
    (hdyn : s0.mode = ExpressionMode.dynamic)
    (hexpr : trimmedExpression s0.wrapped ≠ "")
    (resA resB : EvaluationResult) (hB : resB.success = true) :
    (∀ (s : FieldState) (e : FieldEvent), s.version ≤ (fieldStep field s e).version) ∧
    (∀ (s : FieldState) (tag : Nat) (m : ExpressionMode) (r : EvaluationResult),
      tag ≠ s.version → fieldStep field s (.evalComplete tag m r) = s) ∧
    (fieldStep field s0 .evalStart).version = s0.version + 1 ∧
    (fieldStep field (fieldStep field s0 .evalStart) .evalStart).version
      = s0.version + 2 ∧
    fieldStep field (fieldStep field (fieldStep field s0 .evalStart) .evalStart)
      (.evalComplete (fieldStep field s0 .evalStart).version
        ExpressionMode.dynamic resA)
      = fieldStep field (fieldStep field s0 .evalStart) .evalStart ∧
    (fieldStep field
        (fieldStep field (fieldStep field (fieldStep field s0 .evalStart) .evalStart)
          (.evalComplete (fieldStep field s0 .evalStart).version
            ExpressionMode.dynamic resA))
        (.evalComplete
          (fieldStep field (fieldStep field s0 .evalStart) .evalStart).version
          ExpressionMode.dynamic resB)).wrapped.value
      = coerceValueForField resB.value field := by
  have hs1 : fieldStep field s0 .evalStart = { s0 with version := s0.version + 1 } := by
    simp [fieldStep, hdyn, hexpr]
  have hs2 : fieldStep field { s0 with version := s0.version + 1 } .evalStart
      = { s0 with version := s0.version + 2 } := by
    simp [fieldStep, hdyn, hexpr]
  have hsup : ∀ (s : FieldState) (tag : Nat) (m : ExpressionMode)
      (r : EvaluationResult), tag ≠ s.version →
      fieldStep field s (.evalComplete tag m r) = s := by
    intro s tag m r hne
    simp [fieldStep, hne]
  have hmono : ∀ (s : FieldState) (e : FieldEvent),
      s.version ≤ (fieldStep field s e).version := by
    intro s e
    cases e with
    | evalStart =>
        simp only [fieldStep]
        split
        · exact Nat.le_refl _
        · split
          · exact Nat.le_refl _
          · exact Nat.le_succ _
    | evalComplete tag m r =>
        simp only [fieldStep]
        split
        · exact Nat.le_refl _
        · exact Nat.le_refl _
  refine ⟨hmono, hsup, by rw [hs1], by rw [hs1, hs2], ?_, ?_⟩
  · rw [hs1, hs2]
    exact hsup _ _ _ _ (by simp)
  · rw [hs1, hs2, hsup { s0 with version := s0.version + 2 } (s0.version + 1)
      ExpressionMode.dynamic resA (by simp)]
    simp [fieldStep, hdyn, hB]

theorem stale_result_suppression_witness :
    (fieldStep textField
        (fieldStep textField
          (fieldStep textField (fieldStep textField sampleState .evalStart) .evalStart)
          (.evalComplete (fieldStep textField sampleState .evalStart).version
            ExpressionMode.dynamic { success := true, value := .str "A", error := none }))
        (.evalComplete
          (fieldStep textField
            (fieldStep textField sampleState .evalStart) .evalStart).version
          ExpressionMode.dynamic
          { success := true, value := .str "B", error := none })).wrapped.value
      = coerceValueForField (.str "B") textField :=
  (stale_result_suppression textField sampleState rfl (by decide)
    { success := true, value := .str "A", error := none }
    { success := true, value := .str "B", error := none } rfl).2.2.2.2.2

/-! ### Config transformer lemmas -/

theorem alistLookup_eq_none_of_not_mem {α : Type} {key : String} :
    ∀ {ps : List (String × α)}, key ∉ ps.map Prod.fst → alistLookup key ps = none := by
  intro ps
  induction ps with
  | nil => intro _; rfl
  | cons kv ps ih =>
      intro hnot
      simp only [List.map_cons, List.mem_cons] at hnot
      push_neg at hnot
      simp only [alistLookup]
      rw [if_neg (fun hk => hnot.1 hk.symm)]
      exact ih hnot.2

theorem transformFields_keys {fm : FieldMap} :
    ∀ {key : String}, key ∈ (transformFields fm).map Prod.fst →
      key ∈ fm.map Prod.fst := by
  induction fm with
  | nil => intro key hmem; simp [transformFields] at hmem
  | cons kv fm ih =>
      obtain ⟨k, e⟩ := kv
      intro key hmem
      cases e with
      | none =>
          simp only [transformFields] at hmem
          simp only [List.map_cons, List.mem_cons]
          exact Or.inr (ih hmem)
      | some f =>
          simp only [transformFields] at hmem
          simp only [List.map_cons, List.mem_cons]
          by_cases hp : isPrimitiveField f
          · rw [if_pos hp] at hmem
            simp only [List.map_cons, List.mem_cons] at hmem
            rcases hmem with hmem | hmem
            · exact Or.inl hmem
            · exact Or.inr (ih hmem)
          · rw [if_neg hp] at hmem
            simp only [List.map_cons, List.mem_cons] at hmem
            rcases hmem with hmem | hmem
            · exact Or.inl hmem
            · exact Or.inr (ih hmem)

theorem transformFields_lookup (fm : FieldMap) (key : String) :
    (fm.map Prod.fst).Nodup →
    (alistLookup key fm = some none → alistLookup key (transformFields fm) = none) ∧
    (∀ f, alistLookup key fm = some (some f) →
      alistLookup key (transformFields fm) =
        some (if isPrimitiveField f then
          { type := "custom", label := f.label, extra := [] } else f)) := by
  induction fm with
  | nil =>
      intro _
      exact ⟨fun h => Option.noConfusion h, fun f h => Option.noConfusion h⟩
  | cons kv fm ih =>
      intro hnodup
      obtain ⟨k, e⟩ := kv
      have hnodup2 : (fm.map Prod.fst).Nodup := (List.nodup_cons.mp hnodup).2
      have hknot : k ∉ fm.map Prod.fst := (List.nodup_cons.mp hnodup).1
      by_cases hk : k = key
      · subst hk
        constructor
        · intro hl
          simp only [alistLookup, if_pos rfl] at hl
          cases hl
          simp only [transformFields]
          exact alistLookup_eq_none_of_not_mem
            (fun hmem => hknot (transformFields_keys hmem))
        · intro f hl
          simp only [alistLookup, if_pos rfl] at hl
          cases hl
          simp only [transformFields]
          by_cases hp : isPrimitiveField f
          · rw [if_pos hp]
            simp [alistLookup, hp]
          · rw [if_neg hp]
            simp [alistLookup, hp]
      · constructor
        · intro hl
          simp only [alistLookup, if_neg hk] at hl
          have hrec := (ih hnodup2).1 hl
          cases e with
          | none => simpa [transformFields] using hrec
          | some f =>
              simp only [transformFields]
              by_cases hp : isPrimitiveField f
              · rw [if_pos hp]
                simp only [alistLookup, if_neg hk]
                exact hrec
              · rw [if_neg hp]
                simp only [alistLookup, if_neg hk]
                exact hrec
        · intro f hl
          simp only [alistLookup, if_neg hk] at hl
          have hrec := (ih hnodup2).2 f hl
          cases e with
          | none => simpa [transformFields] using hrec
          | some f2 =>
              simp only [transformFields]
              by_cases hp : isPrimitiveField f2
              · rw [if_pos hp]
                simp only [alistLookup, if_neg hk]
                exact hrec
              · rw [if_neg hp]
                simp only [alistLookup, if_neg hk]
                exact hrec

/-- The per-component transformation `withExpressions` applies. -/
def transformComponent (component : Component) : Component :=
  match component.fields with
  | none => component
  | some fieldMap =>
      { fields := some ((transformFields fieldMap).map fun kf => (kf.1, some kf.2)),
        renderWrapped := true }

theorem withExpressions_lookup (config : Config) (name : String) :
    alistLookup name (withExpressions config) =
      (alistLookup name config).map transformComponent := by
  induction config with
  | nil => rfl
  | cons kv config ih =>
      obtain ⟨n, c⟩ := kv
      by_cases hn : n = name
      · subst hn
        cases hcf : c.fields with
        | none => simp [withExpressions, alistLookup, hcf, transformComponent]
        | some fieldMap => simp [withExpressions, alistLookup, hcf, transformComponent]
      · cases hcf : c.fields with
        | none =>
            simpa [withExpressions, alistLookup, hcf, hn] using ih
        | some fieldMap =>
            simpa [withExpressions, alistLookup, hcf, hn] using ih

/-- C5: `withExpressions` rewrites each component's field map through
`transformFields` (and wraps its render function): primitive-typed
fields — exactly those with type text, textarea, number, select or
radio — become `custom` fields that keep the original label; fields of
any other type pass through unchanged; and null/undefined field entries
are dropped from the output field map rather than crashing the
transformer. -/
theorem withExpressions_transforms (config : Config) (name key : String)
    (component : Component) (fieldMap : FieldMap)
    (hc : alistLookup name config = some component)
    (hf : component.fields = some fieldMap)
    (hnodup : (fieldMap.map Prod.fst).Nodup) :
    alistLookup name (withExpressions config) =
      some { fields := some ((transformFields fieldMap).map fun kf => (kf.1, some kf.2)),
             renderWrapped := true } ∧
    (∀ field2, isPrimitiveField field2 = true ↔
      (field2.type = "text" ∨ field2.type = "textarea" ∨ field2.type = "number" ∨
        field2.type = "select" ∨ field2.type = "radio")) ∧
    (∀ field2, alistLookup key fieldMap = some (some field2) →
      isPrimitiveField field2 = true →
      alistLookup key (transformFields fieldMap) =
        some { type := "custom", label := field2.label, extra := [] }) ∧
    (∀ field2, alistLookup key fieldMap = some (some field2) →
      isPrimitiveField field2 = false →
      alistLookup key (transformFields fieldMap) = some field2) ∧
    (alistLookup key fieldMap = some none →
      alistLookup key (transformFields fieldMap) = none) := by
  refine ⟨?_, ?_, ?_, ?_, ?_⟩
  · rw [withExpressions_lookup, hc]
    simp [transformComponent, hf]
  · intro field2
    simp [isPrimitiveField]
  · intro field2 hl hp
    have := (transformFields_lookup fieldMap key hnodup).2 field2 hl
    rw [this, if_pos hp]
  · intro field2 hl hp
    have := (transformFields_lookup fieldMap key hnodup).2 field2 hl
    rw [this, if_neg (by rw [hp]; exact Bool.false_ne_true)]
  · exact (transformFields_lookup fieldMap key hnodup).1

/-- Concrete config for the C5 witness: one component with a text field,
an array field, and a null field entry. -/
def witnessFieldMap : FieldMap :=
  [("title", some { type := "text", label := some "Title", extra := [] }),
   ("items", some { type := "array", label := some "Items", extra := [("arrayFields", "x")] }),
   ("broken", none)]

/-- The witness component. -/
def witnessComponent : Component := { fields := some witnessFieldMap, renderWrapped := false }

/-- The witness config. -/
def witnessConfig : Config := [("Card", witnessComponent)]

theorem withExpressions_transforms_witness :
    alistLookup "Card" (withExpressions witnessConfig) =
      some { fields := some ((transformFields witnessFieldMap).map fun kf => (kf.1, some kf.2)),
             renderWrapped := true } ∧
    alistLookup "title" (transformFields witnessFieldMap) =
      some { type := "custom", label := some "Title", extra := [] } ∧
    alistLookup "items" (transformFields witnessFieldMap) =
      some { type := "array", label := some "Items", extra := [("arrayFields", "x")] } ∧
    alistLookup "broken" (transformFields witnessFieldMap) = none := by
  have h1 := withExpressions_transforms witnessConfig "Card" "title"
    witnessComponent witnessFieldMap rfl rfl (by decide)
  have h2 := withExpressions_transforms witnessConfig "Card" "items"
    witnessComponent witnessFieldMap rfl rfl (by decide)
  have h3 := withExpressions_transforms witnessConfig "Card" "broken"
    witnessComponent witnessFieldMap rfl rfl (by decide)
  refine ⟨h1.1, ?_, ?_, ?_⟩
  · exact h1.2.2.1 { type := "text", label := some "Title", extra := [] } rfl rfl
  · exact h2.2.2.2.1 { type := "array", label := some "Items", extra := [("arrayFields", "x")] }
      rfl rfl
  · exact h3.2.2.2.2 rfl

/-! ### Resolver claims -/

/-- C6: round-trip resolution.  Where the plain-value reading succeeds
(the input is an acyclic, sharing-free JSON value with no WrappedValue
anywhere, and the reading is its structural copy), the resolver returns
exactly that structural copy: primitives identical, containers
structurally equal, and no returned container aliases an input object
(all containers in the output are newly produced). -/
theorem resolveExpressions_plain_roundtrip (h : Heap) (v : JVal)
    (vis : List Nat) (t : OutVal)
    (hplain : plainJsonReading h (h.length + 1) [] v = some (vis, t)) :
    resolveExpressions h v = some t ∧ outRefs t = [] ∧
    (∀ p, v = .prim p → t = .prim p) := by
  refine ⟨?_, plainJsonReading_noRefs h (h.length + 1) [] v (vis, t) hplain, ?_⟩
  · unfold resolveExpressions
    rw [plainJsonReading_resolves h (h.length + 1) [] v (vis, t) hplain]
    rfl
  · rintro p rfl
    rw [plainJsonReading_prim] at hplain
    cases hplain
    rfl

/-- A plain two-object heap: `{a: 1, b: [null, "x"]}`. -/
def plainHeap : Heap :=
  [JObj.obj [("a", JVal.prim (JAtom.num 1)), ("b", JVal.ref 1)],
   JObj.arr [JVal.prim JAtom.null, JVal.prim (JAtom.str "x")]]

/-- The structural reading of `plainHeap`'s root. -/
def plainOut : OutVal :=
  OutVal.obj [("a", OutVal.prim (JAtom.num 1)),
    ("b", OutVal.arr [OutVal.prim JAtom.null, OutVal.prim (JAtom.str "x")])]

theorem resolveExpressions_plain_roundtrip_witness :
    resolveExpressions plainHeap (JVal.ref 0) = some plainOut ∧
    outRefs plainOut = [] ∧
    (∀ p, JVal.ref 0 = JVal.prim p → plainOut = OutVal.prim p) :=
  resolveExpressions_plain_roundtrip plainHeap (JVal.ref 0) [1, 0] plainOut (by rfl)

/-- Cyclic heap: `const a = {}; a.self = a`. -/
def cycHeap : Heap := [JObj.obj [("self", JVal.ref 0)]]

/-- C7: cycle safety.  On every closed object graph — cyclic ones
included — the resolver terminates with a result (`h.length + 1` fuel is
never exhausted), and a container already in the visited set is returned
unchanged rather than recursed into. -/
theorem resolveExpressions_terminates (h : Heap) (v : JVal)
    (hwf : wfHeap h = true) (hv : valRefsOk h v = true) :
    (resolveExpressions h v).isSome = true ∧
    (∀ (fuel : Nat) (vis : List Nat) (a : Nat), a ∈ vis →
      resolveVal h (fuel + 1) vis (.ref a) = some (vis, .inref a)) := by
  constructor
  · have hun : unvis h [] < h.length + 1 := by
      have hn : unvis h [] = h.length := by simp [unvis]
      omega
    have hsome := resolveVal_isSome h hwf (h.length + 1) [] v hv hun
    unfold resolveExpressions
    obtain ⟨r, hr⟩ := Option.isSome_iff_exists.mp hsome
    rw [hr]
    rfl
  · intro fuel vis a ha
    exact resolveVal_visited h fuel ha

theorem resolveExpressions_terminates_witness :
    (resolveExpressions cycHeap (JVal.ref 0)).isSome = true :=
  (resolveExpressions_terminates cycHeap (JVal.ref 0) (by rfl) (by rfl)).1

/-- The C8 counterexample heap: an object that is not WrappedValue-shaped
(its `__mode__` is itself an object) but whose resolution produces a
WrappedValue-shaped object. -/
def idemHeap : Heap :=
  [JObj.obj [("__mode__", JVal.ref 1), ("__value__", JVal.prim (JAtom.num 5))],
   JObj.obj [("__mode__", JVal.prim (JAtom.str "static")),
     ("__value__", JVal.prim (JAtom.str "static"))]]

/-- C8 counterexample: resolution is not idempotent.  Resolving
`idemHeap`'s root yields the object
`{__mode__: "static", __value__: 5}`; resolving that result again
unwraps it to `5`, so `resolve (resolve x)` differs from `resolve x`. -/
theorem resolve_not_idempotent :
    resolveExpressions idemHeap (JVal.ref 0)
      = some (OutVal.obj [("__mode__", OutVal.prim (JAtom.str "static")),
          ("__value__", OutVal.prim (JAtom.num 5))]) ∧
    resolveExpressionsTwice idemHeap (JVal.ref 0)
      = some (OutVal.prim (JAtom.num 5)) ∧
    resolveExpressionsTwice idemHeap (JVal.ref 0)
      ≠ resolveExpressions idemHeap (JVal.ref 0) := by
  refine ⟨by rfl, by rfl, ?_⟩
  intro heq
  have h1 : resolveExpressionsTwice idemHeap (JVal.ref 0)
      = some (OutVal.prim (JAtom.num 5)) := by rfl
  have h2 : resolveExpressions idemHeap (JVal.ref 0)
      = some (OutVal.obj [("__mode__", OutVal.prim (JAtom.str "static")),
          ("__value__", OutVal.prim (JAtom.num 5))]) := by rfl
  rw [h1, h2] at heq
  exact OutVal.noConfusion (Option.some.inj heq)

/-- C8 as amended: resolution is idempotent on every input whose single
resolution yields a result with no aliased container (no visited-set
hit) and no WrappedValue-shaped object. -/
theorem resolve_idempotent_on_clean (h : Heap) (v : JVal) (out : OutVal)
    (hres : resolveExpressions h v = some out)
    (hrefs : outRefs out = []) (hnw : noWrappedOut out = true) :
    resolveExpressionsTwice h v = some out := by
  unfold resolveExpressionsTwice
  rw [hres]
  simp only [Option.some_bind]
  show resolveExpressions (graftVal h out).1 (graftVal h out).2 = some out
  obtain ⟨d, hrv, hb⟩ := graftVal_resolves out (graftVal h out).1 h []
    ((graftVal h out).1.length + 1)
    (heapExt_refl _) hrefs hnw (by intro b hbm; simp at hbm)
    (by have := graftVal_length h out; omega)
  unfold resolveExpressions
  rw [hrv]
  rfl

/-- Heap holding `{title: {__mode__: "static", __value__: "Hello"}}`. -/
def wrapHeap : Heap :=
  [JObj.obj [("title", JVal.ref 1)],
   JObj.obj [("__mode__", JVal.prim (JAtom.str "static")),
     ("__value__", JVal.prim (JAtom.str "Hello"))]]

/-- The root of `wrapHeap` resolves to the plain object with title Hello. -/
def wrapOut : OutVal := OutVal.obj [("title", OutVal.prim (JAtom.str "Hello"))]

theorem resolve_idempotent_on_clean_witness :
    resolveExpressionsTwice wrapHeap (JVal.ref 0) = some wrapOut :=
  resolve_idempotent_on_clean wrapHeap (JVal.ref 0) wrapOut (by rfl) (by rfl) (by rfl)

/-- C9 counterexample: on the cyclic heap the resolver's output object
contains the input object itself (`self` maps to input address 0), so
the output is not made exclusively of new container instances — an
object reachable from the input is returned inside the result. -/
theorem resolver_aliases_cyclic_input :
    resolveExpressions cycHeap (JVal.ref 0)
      = some (OutVal.obj [("self", OutVal.inref 0)]) ∧
    (resolveExpressions cycHeap (JVal.ref 0)).map outRefs = some [0] ∧
    (resolveExpressions cycHeap (JVal.ref 0)).map outRefs ≠ some [] := by
  refine ⟨by rfl, by rfl, ?_⟩
  intro heq
  have h1 : (resolveExpressions cycHeap (JVal.ref 0)).map outRefs = some [0] := by rfl
  rw [h1] at heq
  exact absurd (Option.some.inj heq) (by decide)

/-- C9 as amended: the resolver never writes to the input heap (it is
embedded with read-only access, mirroring a source that performs no
assignment to its input), and its output containers are new except for
containers returned unchanged by the visited-set guard: every aliased
container in the output was in the final visited set, and whenever the
sharing-refusing reading succeeds (acyclic, sharing-free input), the
output aliases no input container at all. -/
theorem resolver_output_containers_fresh (h : Heap) :
    (∀ (fuel : Nat) (vis : List Nat) (v : JVal) (r : List Nat × OutVal),
      resolveVal h fuel vis v = some r → ∀ b ∈ outRefs r.2, b ∈ r.1) ∧
    (∀ (fuel : Nat) (vis : List Nat) (v : JVal) (r : List Nat × OutVal),
      resolveFresh h fuel vis v = some r →
      resolveVal h fuel vis v = some r ∧ outRefs r.2 = []) := by
  constructor
  · exact fun fuel vis v r hr => resolveVal_refs h fuel vis v r hr
  · intro fuel vis v r hr
    exact ⟨resolveFresh_resolves h fuel vis v r hr,
      resolveFresh_noRefs h fuel vis v r hr⟩

theorem resolver_output_containers_fresh_witness :
    resolveVal wrapHeap 3 [] (JVal.ref 0) = some ([1, 0], wrapOut) ∧
    outRefs wrapOut = [] :=
  (resolver_output_containers_fresh wrapHeap).2 3 [] (JVal.ref 0) ([1, 0], wrapOut) (by rfl)

end PuckJsonata
